import Mathlib

/-!
# A verification model of the `zeppos-easy-storage` time-series engine

This file gives a shallow embedding, in Lean, of the parts of the repository
that the specification's quantified claims talk about:

* the `EasyTSDB` class (`writePoint`, `flush`, `query`, `retrieveDataSeries`,
  `purge`, `databaseClear`, the checksummed index envelopes and their
  recovery ladder, the autosave debounce, the query cache);
* the backup/restore facade (`databaseBackup`, `databaseRestore`);
* the newline-delimited streaming JSON codec of the async pipeline
  (`safeCopyToMetadata`, `nd_streamJsonWrite`, `nd_parseJsonAsync`).

Modelling conventions, used throughout and noted again at each definition:

* Timestamps are `Int` milliseconds since the Unix epoch, exactly as the
  source's `Date.now()` values.  JavaScript `Date` UTC component getters are
  floor divisions/remainders on that integer; the device timezone is taken
  to be UTC, so the source's mixed use of `getFullYear` (local) and
  `getUTCFullYear` coincide.
* A shard file path `"<dir>/YYYY_MM_DD_HH.json"` (hour frame) or
  `"<dir>/YYYY_MM_DD_HH_MM.json"` (minute frame) is determined by, and
  determines, the UTC bucket index `⌊t / bucket_ms⌋` of the timestamps it
  stores.  Shard files are therefore keyed by that bucket index (`Int`);
  the directory prefix is a per-instance constant and is dropped.
* JavaScript plain objects used as maps are insertion-ordered association
  lists (`List (κ × β)` with unique keys).
* The on-disk shard store is a total function `Int → List Point`;
  a missing file and an empty file both read back as `[]`, exactly the
  behaviour of `#getDataPointsFromFile` (the storage layer's `readFile`
  returns `""` for a missing file and the reader returns `[]` for empty or
  unparseable content).
-/

namespace EasyStorage

/-! ## Association lists (JavaScript objects as insertion-ordered maps) -/

/-- First-match lookup in an insertion-ordered association list, the
meaning of `obj[key]` on a JavaScript plain object (returning `undefined`,
i.e. `none`, when the key is absent). -/
def alookup {κ β : Type _} [DecidableEq κ] : List (κ × β) → κ → Option β
  | [], _ => none
  | e :: es, k => if e.1 = k then some e.2 else alookup es k

/-- `obj[key] = f(obj[key] ?? dflt)` on a JavaScript plain object: updates the
value in place when the key exists, otherwise appends the key at the end of
the insertion order (starting from the default `dflt`). -/
def upsert {κ β : Type _} [DecidableEq κ] (l : List (κ × β)) (k : κ) (f : β → β)
    (dflt : β) : List (κ × β) :=
  if (alookup l k).isSome then
    l.map (fun e => if e.1 = k then (e.1, f e.2) else e)
  else
    l ++ [(k, f dflt)]

@[simp] theorem alookup_nil {κ β : Type _} [DecidableEq κ] (k : κ) :
    alookup ([] : List (κ × β)) k = none := rfl

@[simp] theorem alookup_cons {κ β : Type _} [DecidableEq κ] (e : κ × β)
    (es : List (κ × β)) (k : κ) :
    alookup (e :: es) k = if e.1 = k then some e.2 else alookup es k := rfl

theorem alookup_append {κ β : Type _} [DecidableEq κ] (l₁ l₂ : List (κ × β)) (k : κ) :
    alookup (l₁ ++ l₂) k =
      match alookup l₁ k with
      | some v => some v
      | none => alookup l₂ k := by
  induction l₁ with
  | nil => simp
  | cons e es ih =>
      by_cases h : e.1 = k <;> simp [alookup, h, ih]

theorem alookup_map_upd {κ β : Type _} [DecidableEq κ] (l : List (κ × β)) (k k' : κ)
    (f : β → β) :
    alookup (l.map (fun e => if e.1 = k then (e.1, f e.2) else e)) k' =
      if k = k' then (alookup l k').map f else alookup l k' := by
  induction l with
  | nil => simp
  | cons e es ih =>
      by_cases hkk : k = k'
      · subst hkk
        by_cases hek : e.1 = k
        · simp [alookup, hek, ih]
        · simp [alookup, hek, ih]
      · by_cases hek : e.1 = k
        · have h2 : e.1 ≠ k' := by rw [hek]; exact hkk
          simp [alookup, hek, h2, ih, hkk]
        · have hkk' : ¬ k' = k := fun hc => hkk hc.symm
          by_cases hek' : e.1 = k'
          · simp [alookup, hek, hek', ih, hkk, hkk']
          · simp [alookup, hek, hek', ih, hkk, hkk']

theorem alookup_upsert_self {κ β : Type _} [DecidableEq κ] (l : List (κ × β)) (k : κ)
    (f : β → β) (dflt : β) :
    alookup (upsert l k f dflt) k =
      some (f ((alookup l k).getD dflt)) := by
  unfold upsert
  by_cases h : (alookup l k).isSome
  · obtain ⟨v, hv⟩ := Option.isSome_iff_exists.mp h
    simp [h, alookup_map_upd, hv]
  · have hnone : alookup l k = none := Option.not_isSome_iff_eq_none.mp h
    simp [h, alookup_append, hnone]

theorem alookup_upsert_ne {κ β : Type _} [DecidableEq κ] (l : List (κ × β)) (k k' : κ)
    (f : β → β) (dflt : β) (hne : k ≠ k') :
    alookup (upsert l k f dflt) k' = alookup l k' := by
  unfold upsert
  by_cases h : (alookup l k).isSome
  · simp [h, alookup_map_upd, hne]
  · cases hv : alookup l k' with
    | some v => simp [h, alookup_append, hv]
    | none => simp [h, alookup_append, hv, hne]

theorem alookup_isSome_mem {κ β : Type _} [DecidableEq κ] {l : List (κ × β)} {k : κ}
    {v : β} (h : alookup l k = some v) : (k, v) ∈ l := by
  induction l with
  | nil => simp at h
  | cons e es ih =>
      obtain ⟨a, b⟩ := e
      rw [alookup_cons] at h
      by_cases hek : a = k
      · simp [hek] at h
        subst hek
        subst h
        exact List.mem_cons_self _ _
      · simp [hek] at h
        exact List.mem_cons_of_mem _ (ih h)

theorem alookup_filter_key {κ β : Type _} [DecidableEq κ] (p : κ → Bool)
    {l : List (κ × β)} {k : κ} {v : β}
    (h : alookup (l.filter (fun e => p e.1)) k = some v) :
    p k = true ∧ alookup l k = some v := by
  induction l with
  | nil => simp at h
  | cons e es ih =>
      by_cases hp : p e.1
      · by_cases hek : e.1 = k
        · rw [List.filter_cons_of_pos (by simpa using hp)] at h
          simp [alookup, hek] at h
          subst hek
          simp [alookup, h, hp]
        · rw [List.filter_cons_of_pos (by simpa using hp)] at h
          simp [alookup, hek] at h
          obtain ⟨h1, h2⟩ := ih h
          simp [alookup, hek, h1, h2]
      · rw [List.filter_cons_of_neg (by simpa using hp)] at h
        obtain ⟨h1, h2⟩ := ih h
        have hek : e.1 ≠ k := fun hc => hp (by rw [hc]; simp [h1])
        simp [alookup, hek, h1, h2]

/-! ## UTC time arithmetic

JavaScript `Date` getters on a millisecond timestamp, in a UTC environment,
are floor divisions (`Int.fdiv`) and nonnegative remainders (`Int.emod`). -/

def msPerSecond : Int := 1000
def msPerMinute : Int := 60000
def msPerHour : Int := 3600000
def msPerDay : Int := 86400000

/-- The `time_frame` option of `EasyTSDB` (`"hour"` or `"minute"`). -/
inductive Frame where
  | hour
  | minute
deriving DecidableEq, Repr

/-- Width of one wall-clock bucket in milliseconds. -/
def msPerBucket : Frame → Int
  | .hour => msPerHour
  | .minute => msPerMinute

/-- Number of buckets in one UTC day. -/
def bucketsPerDay : Frame → Int
  | .hour => 24
  | .minute => 1440

/-- The UTC bucket index of a timestamp: `⌊t / bucket_ms⌋`.  In the source a
shard file name `YYYY_MM_DD_HH[_MM].json` is built from the UTC calendar
fields of the timestamp; those fields determine, and are determined by, this
index, which the model uses as the shard file key. -/
def bucketOf (f : Frame) (t : Int) : Int := Int.fdiv t (msPerBucket f)

/-- The UTC day index (days since the epoch) of a bucket; this is the
`YYYY_MM_DD` component of the shard file name. -/
def dayOfBucket (f : Frame) (b : Int) : Int := Int.fdiv b (bucketsPerDay f)

/-- The `HH` component (UTC hour of day) of a bucket's shard file name. -/
def hourOfBucket : Frame → Int → Int
  | .hour, b => Int.emod b 24
  | .minute, b => Int.emod (Int.fdiv b 60) 24

/-- The `MM` component (UTC minute of hour) of a minute-frame bucket. -/
def minuteOfBucket (b : Int) : Int := Int.emod b 60

/-- Civil date `(year, month, day)` from a count of days since 1970-01-01 in
the proleptic Gregorian calendar — the calendar JavaScript `Date` uses.
(Howard Hinnant's `civil_from_days` algorithm.) -/
def civilFromDays (z0 : Int) : Int × Int × Int :=
  let z := z0 + 719468
  let era := Int.fdiv z 146097
  let doe := z - era * 146097
  let yoe := Int.fdiv (doe - Int.fdiv doe 1460 + Int.fdiv doe 36524 - Int.fdiv doe 146096) 365
  let y := yoe + era * 400
  let doy := doe - (365 * yoe + Int.fdiv yoe 4 - Int.fdiv yoe 100)
  let mp := Int.fdiv (5 * doy + 2) 153
  let d := doy - Int.fdiv (153 * mp + 2) 5 + 1
  let m := mp + (if mp < 10 then 3 else -9)
  (y + (if m ≤ 2 then 1 else 0), m, d)

/-- `String(n).padStart(2, "0")` for the small nonnegative numbers produced
by the date getters. -/
def pad2 (n : Int) : String :=
  if 0 ≤ n ∧ n < 10 then "0" ++ toString n else toString n

/-- Millisecond field padded to three digits, as in `Date#toISOString`. -/
def pad3 (n : Int) : String :=
  if 0 ≤ n ∧ n < 10 then "00" ++ toString n
  else if 0 ≤ n ∧ n < 100 then "0" ++ toString n
  else toString n

/-- Year padded to four digits, as `Date#toISOString` renders years
0–9999 (the extended ±YYYYYY form for years outside that range is not
modelled; every claim uses ordinary years). -/
def pad4 (n : Int) : String :=
  if 0 ≤ n ∧ n < 10 then "000" ++ toString n
  else if 0 ≤ n ∧ n < 100 then "00" ++ toString n
  else if 0 ≤ n ∧ n < 1000 then "0" ++ toString n
  else toString n

/-- The `YYYY_MM_DD` date key of a day index, as built by `writePoint` and
`#generateDateKey` (the year is not padded in the source either). -/
def dateKeyString (day : Int) : String :=
  let c := civilFromDays day
  toString c.1 ++ "_" ++ pad2 c.2.1 ++ "_" ++ pad2 c.2.2

/-- `new Date(t).toISOString()` for timestamps with 4-digit years:
`YYYY-MM-DDTHH:mm:ss.sssZ`. -/
def toISOString (t : Int) : String :=
  let day := Int.fdiv t msPerDay
  let c := civilFromDays day
  let ofDay := Int.emod t msPerDay
  pad4 c.1 ++ "-" ++ pad2 c.2.1 ++ "-" ++ pad2 c.2.2 ++ "T" ++
    pad2 (Int.fdiv ofDay msPerHour) ++ ":" ++
    pad2 (Int.emod (Int.fdiv ofDay msPerMinute) 60) ++ ":" ++
    pad2 (Int.emod (Int.fdiv ofDay msPerSecond) 60) ++ "." ++
    pad3 (Int.emod t 1000) ++ "Z"

theorem msPerBucket_pos (f : Frame) : 0 < msPerBucket f := by
  cases f <;> decide

theorem bucketsPerDay_pos (f : Frame) : 0 < bucketsPerDay f := by
  cases f <;> decide

theorem bucketsPerDay_mul_msPerBucket (f : Frame) :
    bucketsPerDay f * msPerBucket f = msPerDay := by
  cases f <;> decide

theorem bucketOf_mono (f : Frame) {a b : Int} (h : a ≤ b) :
    bucketOf f a ≤ bucketOf f b := by
  unfold bucketOf
  rw [Int.fdiv_eq_ediv _ (le_of_lt (msPerBucket_pos f)),
    Int.fdiv_eq_ediv _ (le_of_lt (msPerBucket_pos f))]
  exact Int.ediv_le_ediv (msPerBucket_pos f) h

theorem bucketOf_mul_le (f : Frame) (t : Int) :
    bucketOf f t * msPerBucket f ≤ t := by
  unfold bucketOf
  rw [Int.fdiv_eq_ediv _ (le_of_lt (msPerBucket_pos f))]
  exact Int.ediv_mul_le t (ne_of_gt (msPerBucket_pos f))

theorem lt_bucketOf_succ_mul (f : Frame) (t : Int) :
    t < (bucketOf f t + 1) * msPerBucket f := by
  unfold bucketOf
  rw [Int.fdiv_eq_ediv _ (le_of_lt (msPerBucket_pos f))]
  exact Int.lt_ediv_add_one_mul_self t (msPerBucket_pos f)

theorem bucketOf_boundary (f : Frame) (b : Int) :
    bucketOf f (b * msPerBucket f) = b := by
  unfold bucketOf
  rw [Int.fdiv_eq_ediv _ (le_of_lt (msPerBucket_pos f))]
  exact Int.mul_ediv_cancel b (ne_of_gt (msPerBucket_pos f))

/-- The start of a bucket's UTC day is at or before the start of the
bucket itself. -/
theorem dayOfBucket_mul_le (f : Frame) (b : Int) :
    dayOfBucket f b * msPerDay ≤ b * msPerBucket f := by
  unfold dayOfBucket
  rw [← bucketsPerDay_mul_msPerBucket f, ← mul_assoc]
  have h1 : Int.fdiv b (bucketsPerDay f) * bucketsPerDay f ≤ b := by
    rw [Int.fdiv_eq_ediv _ (le_of_lt (bucketsPerDay_pos f))]
    exact Int.ediv_mul_le b (ne_of_gt (bucketsPerDay_pos f))
  exact mul_le_mul_of_nonneg_right h1 (le_of_lt (msPerBucket_pos f))

/-! ## The directory index and its checksummed envelopes

The source keeps `#index` as a nested plain object
`{"YYYY_MM_DD": {"HH": 1}}` (hour frame) or `{"YYYY_MM_DD": {"HH": {"MM": 1}}}`
(minute frame).  The model keys days by their day index and hours by the hour
number (the strings encode them bijectively); the hour-frame marker value `1`
is represented by an empty minute list, and a minute-frame hour entry by the
list of its minute keys in insertion order. -/

/-- Per-day index entry: hour key → minute keys (empty in hour frame,
standing for the marker `1`). -/
abbrev DayHours := List (Int × List Int)

/-- The in-memory index: day key → per-day entry, insertion ordered. -/
abbrev Index := List (Int × DayHours)

/-- `#index[date][hour][minute] = 1` for a minute key (a no-op when the
minute is already marked, as in the source's plain-object assignment). -/
def addMinute (ms : List Int) (m : Int) : List Int :=
  if m ∈ ms then ms else ms ++ [m]

/-- `EasyTSDB.#updateIndex` restricted to one day entry: in hour frame mark
the bucket's hour present (`#index[date][hour] = 1`); in minute frame ensure
the hour entry exists and mark the bucket's minute. -/
def updateHours : Frame → Int → DayHours → DayHours
  | .hour, b, hs => upsert hs (hourOfBucket .hour b) (fun _ => []) []
  | .minute, b, hs =>
      upsert hs (hourOfBucket .minute b) (fun ms => addMinute ms (minuteOfBucket b)) []

/-- `EasyTSDB.#updateIndex`: record the shard file of bucket `b` in the
index (the source extracts the `YYYY_MM_DD`, `HH` and optional `MM`
components of the file path with a regular expression; here they are the
bucket's day, hour and minute). -/
def updateIndex (f : Frame) (b : Int) (ix : Index) : Index :=
  upsert ix (dayOfBucket f b) (updateHours f b) []

/-- The shard-presence test of `#collectDataPointsForRange`:
`index[date] && index[date][hour] && (!minute || index[date][hour][minute])`. -/
def containsBucket (f : Frame) (ix : Index) (b : Int) : Bool :=
  match alookup ix (dayOfBucket f b) with
  | none => false
  | some hs =>
    match alookup hs (hourOfBucket f b) with
    | none => false
    | some ms =>
      match f with
      | .hour => true
      | .minute => decide (minuteOfBucket b ∈ ms)

/-- Left brace character, written out so that no brace appears inside a
string literal. -/
def lb : String := "\x7b"

/-- Right brace character. -/
def rb : String := "\x7d"

def jsonQuote (s : String) : String := "\"" ++ s ++ "\""

/-- `JSON.stringify` of one day's hour map. -/
def stringifyHours (f : Frame) (hs : DayHours) : String :=
  lb ++ String.intercalate ","
    (hs.map (fun e =>
      jsonQuote (pad2 e.1) ++ ":" ++
        (match f with
         | .hour => "1"
         | .minute =>
             lb ++ String.intercalate ","
               (e.2.map (fun m => jsonQuote (pad2 m) ++ ":1")) ++ rb))) ++ rb

/-- `JSON.stringify(this.#index)`: the serialized index payload that the
checksum is computed over. -/
def stringifyIndex (f : Frame) (ix : Index) : String :=
  lb ++ String.intercalate ","
    (ix.map (fun e => jsonQuote (dateKeyString e.1) ++ ":" ++ stringifyHours f e.2)) ++ rb

/-- `EasyTSDB.#calculateIndexChecksum`: sum of UTF-16 code units mod 65535,
rendered in decimal.  The serialized index is ASCII, where a code unit is
the character's code point. -/
def calculateIndexChecksum (index_str : String) : String :=
  toString (index_str.toList.foldl (fun checksum c => (checksum + c.toNat) % 65535) 0)

/-- The persisted form of the index:
`JSON.stringify({ index_data, index_checksum })`.  The `index_data` string of
the source is modelled by the parsed index value together with
`stringifyIndex`; `JSON.parse ∘ JSON.stringify` is the identity on these
plain nested objects. -/
structure Envelope where
  index_data : Index
  index_checksum : String
deriving DecidableEq, Repr

/-- The validity test of `EasyTSDB.#tryLoadIndex`: the recomputed checksum
of the payload must equal the stored checksum.  A missing or unparseable
envelope file is modelled as `none` and is never valid. -/
def validEnvelope (f : Frame) : Option Envelope → Bool
  | none => false
  | some e => calculateIndexChecksum (stringifyIndex f e.index_data) = e.index_checksum

/-- The envelope `#persistIndex` writes for an index value. -/
def mkEnvelope (f : Frame) (ix : Index) : Envelope :=
  ⟨ix, calculateIndexChecksum (stringifyIndex f ix)⟩

theorem validEnvelope_mkEnvelope (f : Frame) (ix : Index) :
    validEnvelope f (some (mkEnvelope f ix)) = true := by
  simp [validEnvelope, mkEnvelope]

/-! ## Points and the aggregator library -/

/-- A stored data point `{m, v, t}`.  JavaScript numbers are modelled by
rationals; none of the claims depends on float rounding. -/
structure Point where
  m : String
  v : Rat
  t : Int
deriving DecidableEq, Repr, Inhabited

/-- The `{measurement, value, timestamp}` view that `retrieveDataSeries`
returns (the source materialises it with `map`; `query` exposes the same
aliases through a read-only `Proxy`). -/
structure AliasedPoint where
  timestamp : Int
  value : Rat
  measurement : String
deriving DecidableEq, Repr

def aliasPoint (p : Point) : AliasedPoint := ⟨p.t, p.v, p.m⟩

/-- Result of `#performBuiltInAggregation` / a custom reducer.  `undef` is
JavaScript `undefined`; `nan` is the `NaN` produced by an unparseable
percentile suffix; `sqrtv q` stands for `Math.sqrt(q)` (kept symbolic — no
claim observes a square root's numeric value); `err` models the thrown
`Error("Unsupported aggregation type")`. -/
inductive AggResult where
  | undef
  | nan
  | num (q : Rat)
  | strv (s : String)
  | points (l : List Point)
  | nums (l : List Rat)
  | sqrtv (q : Rat)
  | err (msg : String)
deriving DecidableEq, Repr

/-- JavaScript truthiness of a cached query result (`if (cache[key])`).
`undefined`, `NaN`, `0` and `""` are falsy; arrays are always truthy.
A thrown error is not a value and is never a cached truthy result. -/
def truthy : AggResult → Bool
  | .undef => false
  | .nan => false
  | .num q => decide (q ≠ 0)
  | .strv s => decide (s ≠ "")
  | .points _ => true
  | .nums _ => true
  | .sqrtv q => decide (q ≠ 0)
  | .err _ => false

def isErr : AggResult → Bool
  | .err _ => true
  | _ => false

/-- `data_points.reduce((acc, point) => acc + point.v, 0)`. -/
def sumVals (l : List Point) : Rat := l.foldl (fun acc p => acc + p.v) 0

/-- Ascending insertion sort of values, the outcome of
`.sort((a, b) => a - b)` on a numeric array. -/
def insertSorted (x : Rat) : List Rat → List Rat
  | [] => [x]
  | y :: ys => if x ≤ y then x :: y :: ys else y :: insertSorted x ys

def sortVals (l : List Rat) : List Rat := l.foldr insertSorted []

/-- `Math.min(...vals)` over a non-empty list (the empty case is
unreachable: the aggregator returns early on empty input). -/
def listMin : List Rat → Rat
  | [] => 0
  | x :: xs => xs.foldl min x

def listMax : List Rat → Rat
  | [] => 0
  | x :: xs => xs.foldl max x

/-- Frequency map of values, in first-occurrence order (`frequency_map` in
the source; JavaScript enumerates integer-like keys of the plain object
first, but no claim observes the multi-mode ordering). -/
def freqMap (l : List Point) : List (Rat × Nat) :=
  l.foldl (fun fm p => upsert fm p.v (fun n => n + 1) 0) []

def maxFreq (fm : List (Rat × Nat)) : Nat :=
  fm.foldl (fun acc e => max acc e.2) 0

/-- `parseInt(s, 10)` restricted to a leading run of decimal digits
(`NaN` — `none` — when there is none; signs and whitespace do not occur in
the aggregation keys). -/
def parseDecimal (s : String) : Option Nat :=
  let ds := s.toList.takeWhile Char.isDigit
  if ds.isEmpty then none
  else some (ds.foldl (fun n c => n * 10 + (c.toNat - 48)) 0)

/-- `EasyTSDB.#calculatePercentile`: sort by value, compute the fractional
rank `N/100·(n−1)+1`, and linearly interpolate between the two neighbouring
ranks. -/
def calculatePercentile (data_points : List Point) (percentile_rank : Nat) : AggResult :=
  let sorted_values := sortVals (data_points.map (fun dp => dp.v))
  let rank : Rat := ((percentile_rank : Rat) / 100) * ((sorted_values.length : Rat) - 1) + 1
  let index : Int := ⌊rank⌋ - 1
  let frac : Rat := rank - ⌊rank⌋
  if sorted_values.length = 0 then .undef
  else if frac = 0 then .num (sorted_values.getD index.toNat 0)
  else .num (sorted_values.getD index.toNat 0 +
    frac * (sorted_values.getD (index.toNat + 1) 0 - sorted_values.getD index.toNat 0))

/-- `EasyTSDB.#performBuiltInAggregation`.  The early exit
`if (data_points.length === 0) return undefined;` precedes every branch,
including `"raw"`.  Divisions by zero cannot occur after it except in
`rate_of_change` (where a zero predecessor yields `Infinity` in JavaScript;
modelled as the rational `0`, not observed by any claim). -/
def performBuiltInAggregation (data_points : List Point) (aggregation_type : String) :
    AggResult :=
  if data_points.length = 0 then .undef
  else if aggregation_type.startsWith "percentile_" then
    match parseDecimal ((aggregation_type.splitOn "_").getD 1 "") with
    | none => .nan
    | some p => calculatePercentile data_points p
  else if aggregation_type = "trend" then
    if 1 < data_points.length then
      let firstPoint := (data_points.headI).v
      let lastPoint := (data_points.getLastD ⟨"", 0, 0⟩).v
      if firstPoint < lastPoint then .strv "up"
      else if lastPoint < firstPoint then .strv "down"
      else .strv "steady"
    else .strv "steady"
  else if aggregation_type = "raw" then .points data_points
  else if aggregation_type = "sum" then .num (sumVals data_points)
  else if aggregation_type = "average" then
    .num (sumVals data_points / (data_points.length : Rat))
  else if aggregation_type = "min" then
    .num (listMin (data_points.map (fun p => p.v)))
  else if aggregation_type = "max" then
    .num (listMax (data_points.map (fun p => p.v)))
  else if aggregation_type = "count" then .num (data_points.length : Rat)
  else if aggregation_type = "median" then
    let sorted_vals := sortVals (data_points.map (fun dp => dp.v))
    let middle_index := sorted_vals.length / 2
    if sorted_vals.length % 2 ≠ 0 then .num (sorted_vals.getD middle_index 0)
    else .num ((sorted_vals.getD (middle_index - 1) 0 + sorted_vals.getD middle_index 0) / 2)
  else if aggregation_type = "mode" then
    let fm := freqMap data_points
    let mf := maxFreq fm
    let modes := (fm.filter (fun e => e.2 = mf)).map (fun e => e.1)
    match modes with
    | [x] => .num x
    | l => .nums l
  else if aggregation_type = "stddev" then
    if 1 < data_points.length then
      let mean := sumVals data_points / (data_points.length : Rat)
      let variance :=
        (data_points.foldl (fun acc dp => acc + (dp.v - mean) ^ 2) 0) /
          ((data_points.length : Rat) - 1)
      .sqrtv variance
    else .undef
  else if aggregation_type = "first" then .num ((data_points.headI).v)
  else if aggregation_type = "last" then .num ((data_points.getLastD ⟨"", 0, 0⟩).v)
  else if aggregation_type = "range" then
    .num (listMax (data_points.map (fun p => p.v)) - listMin (data_points.map (fun p => p.v)))
  else if aggregation_type = "iqr" then
    let sorted := sortVals (data_points.map (fun dp => dp.v))
    let q1 := sorted.getD (sorted.length / 4) 0
    let q3_pos := 3 * sorted.length / 4
    let q3 :=
      if sorted.length % 2 = 0 then (sorted.getD q3_pos 0 + sorted.getD (q3_pos - 1) 0) / 2
      else sorted.getD q3_pos 0
    .num (q3 - q1)
  else if aggregation_type = "variance" then
    if 1 < data_points.length then
      let mean := sumVals data_points / (data_points.length : Rat)
      .num ((data_points.foldl (fun acc dp => acc + (dp.v - mean) ^ 2) 0) /
        ((data_points.length : Rat) - 1))
    else .undef
  else if aggregation_type = "rate_of_change" then
    if 1 < data_points.length then
      .nums ((data_points.zip data_points.tail).map
        (fun pq => (pq.2.v - pq.1.v) / pq.1.v))
    else .undef
  else .err "Unsupported aggregation type"

/-! ## The engine state and its operations -/

/-- The shard files on disk, keyed by bucket index.  `[]` stands for a
missing or empty file: `#getDataPointsFromFile` returns `[]` for both, and
`flush` treats both as an empty list of old points. -/
abbrev Files := Int → List Point

/-- The in-memory state of one `EasyTSDB` instance together with its data
directory on disk.  `frame` and `max_ram` are the relevant configuration
(`directory` is a constant prefix of every path and is dropped).  The two
envelope slots are the contents of `index.json` and `index_backup.json`
(`none` = absent or unparseable). -/
structure DB where
  frame : Frame
  max_ram : Rat
  data_in_ram : List (Int × List Point)
  files : Files
  index : Index
  cur_index_checksum : String
  primary : Option Envelope
  backup : Option Envelope
  has_pending_writes : Bool
  db_cleared : Bool
  query_cache : List (String × AggResult)

/-- `EasyTSDB.#persistIndex`: serialize the live index, envelope it with its
checksum, write the envelope to `index.json` and then to
`index_backup.json`, and remember the checksum. -/
def persistIndex (db : DB) : DB :=
  let e := mkEnvelope db.frame db.index
  { db with primary := some e, backup := some e, cur_index_checksum := e.index_checksum }

/-- `EasyTSDB.#persistIndexIfNeeded`: rewrite the envelopes only when the
live checksum differs from the last persisted one. -/
def persistIndexIfNeeded (db : DB) : DB :=
  let new_index_checksum := calculateIndexChecksum (stringifyIndex db.frame db.index)
  if db.cur_index_checksum ≠ new_index_checksum then persistIndex db else db

/-- `#initializeEmptyIndex` followed by the `#persistIndex` call at the end
of the recovery ladder. -/
def initializeEmptyAndPersist (db : DB) : DB :=
  persistIndex { db with
    index := [],
    cur_index_checksum := calculateIndexChecksum (stringifyIndex db.frame []) }

/-- The backup half of `EasyTSDB.#loadIndex`: try the backup envelope; on
success adopt it (and return — the primary is not rewritten); otherwise
initialize an empty index and persist both copies. -/
def loadIndexBackup (db : DB) : DB :=
  match db.backup with
  | some e =>
      if validEnvelope db.frame (some e) then
        { db with index := e.index_data, cur_index_checksum := e.index_checksum }
      else initializeEmptyAndPersist db
  | none => initializeEmptyAndPersist db

/-- `EasyTSDB.#loadIndex` (run by the constructor): adopt the primary
envelope when its checksum validates, else fall back to the backup, else
start empty and persist. -/
def loadIndex (db : DB) : DB :=
  match db.primary with
  | some e =>
      if validEnvelope db.frame (some e) then
        { db with index := e.index_data, cur_index_checksum := e.index_checksum }
      else loadIndexBackup db
  | none => loadIndexBackup db

/-- One iteration of `flush`'s loop over the pending buffers: write
`old points ++ new points` to the shard file of bucket `e.1` and record the
bucket in the index (`#updateIndex`). -/
def flushStep (f : Frame) (acc : Files × Index) (e : Int × List Point) : Files × Index :=
  (fun b' => if b' = e.1 then acc.1 b' ++ e.2 else acc.1 b',
   updateIndex f e.1 acc.2)

/-- `EasyTSDB.flush`: a no-op unless dirty or just cleared; otherwise merge
every pending shard buffer after the shard file's old points, record each
shard in the index, differentially persist the index, clear the buffer and
the flags.  The query cache is not touched. -/
def flush (db : DB) : DB :=
  if db.has_pending_writes = false ∧ db.db_cleared = false then db
  else
    let fi := db.data_in_ram.foldl (flushStep db.frame) (db.files, db.index)
    persistIndexIfNeeded { db with
      files := fi.1,
      index := fi.2,
      has_pending_writes := false,
      db_cleared := false,
      data_in_ram := [] }

/-- `this.#data_in_ram[file_path].push({m, v, t})`, creating the per-shard
buffer when absent. -/
def ramPush (r : List (Int × List Point)) (b : Int) (p : Point) :
    List (Int × List Point) :=
  upsert r b (fun l => l ++ [p]) []

/-- `EasyTSDB.writePoint`.  The source estimates RAM usage as
`JSON.stringify(points).length` summed over the buffers; only its comparison
against `max_ram` matters, so the estimate is abstracted as the parameter
`sz`.  The autosave re-arm touches no modelled state (see
`autosaveDelayMs`). -/
def writePoint (sz : List (Int × List Point) → Nat) (db : DB)
    (m : String) (v : Rat) (t : Int) : DB :=
  let b := bucketOf db.frame t
  let db' := { db with
    data_in_ram := ramPush db.data_in_ram b ⟨m, v, t⟩,
    has_pending_writes := true }
  if db.max_ram < (sz db'.data_in_ram : Rat) then flush db' else db'

/-- A sequence of `writePoint` calls. -/
def writeMany (sz : List (Int × List Point) → Nat) (db : DB)
    (ps : List (String × Rat × Int)) : DB :=
  ps.foldl (fun d e => writePoint sz d e.1 e.2.1 e.2.2) db

/-- The scan loop of `#collectDataPointsForRange`: starting from `current`,
visit each bucket's start until past `endT`, reading the shard file of every
bucket recorded in the index; `#incrementDate` jumps to the next bucket
boundary (`setUTCHours(h+1, 0, 0, 0)` resp. `setUTCMinutes(m+1, 0, 0)`).
The source's `while` loop terminates because `current` strictly advances
each iteration; the model carries an explicit iteration budget that the
advance (at least 1 ms per step) can never exhaust. -/
def collectLoop (f : Frame) (files : Files) (ix : Index) :
    Nat → Int → Int → List Point
  | 0, _, _ => []
  | fuel + 1, current, endT =>
      if current ≤ endT then
        let b := bucketOf f current
        (if containsBucket f ix b then files b else []) ++
          collectLoop f files ix fuel ((b + 1) * msPerBucket f) endT
      else []

/-- `EasyTSDB.#collectDataPointsForRange`: the scan starts one day before
`start_time` (the source's deliberate `setUTCDate(date - 1)` rewind, an
exact 86 400 000 ms subtraction). -/
def collectDataPointsForRange (f : Frame) (files : Files) (ix : Index)
    (start_time end_time : Int) : List Point :=
  collectLoop f files ix (end_time + 1 - (start_time - msPerDay)).toNat
    (start_time - msPerDay) end_time

/-- `EasyTSDB.retrieveDataSeries`: the same scan, each point exposed under
the `{timestamp, value, measurement}` aliases.  The `Date` ↔ ISO-string
round trip of the bounds is the identity on milliseconds. -/
def retrieveDataSeries (db : DB) (start_time end_time : Int) : List AliasedPoint :=
  (collectDataPointsForRange db.frame db.files db.index start_time end_time).map aliasPoint

/-- The file removals `purge` performs for one dropped date entry: one
`Storage.RemoveFile` per hour recorded under the date (hour frame), or one
per recorded (hour, minute) pair (minute frame); the removed shard file's
bucket index is reassembled from the date, hour and minute components of its
name. -/
def removeDayFiles (f : Frame) (files0 : Files) (e : Int × DayHours) : Files :=
  match f with
  | .hour =>
      e.2.foldl (fun fs he =>
        fun b' => if b' = e.1 * 24 + he.1 then [] else fs b') files0
  | .minute =>
      e.2.foldl (fun fs he =>
        he.2.foldl (fun fs2 mn =>
          fun b' => if b' = e.1 * 1440 + he.1 * 60 + mn then [] else fs2 b') fs) files0

/-- `EasyTSDB.purge(older_than)`: for every indexed date whose UTC midnight
(`new Date("YYYY-MM-DD")`) is strictly before the threshold instant, remove
every shard file recorded under that date and drop the date from the index;
persist the index (both copies) iff something was dropped.  The query cache
is not touched. -/
def purge (db : DB) (older_than : Int) : DB :=
  let dropped := db.index.filter (fun e => decide (e.1 * msPerDay < older_than))
  if dropped.isEmpty then db
  else
    persistIndex { db with
      files := dropped.foldl (removeDayFiles db.frame) db.files,
      index := db.index.filter (fun e => ¬ (e.1 * msPerDay < older_than)) }

/-- `EasyTSDB.databaseClear(consent)`: requires the literal `"YES"`;
removes every file in the data directory including both index envelopes,
resets the in-memory state and sets the `db_cleared` sentinel.  (The last
persisted checksum is not reset by the source.) -/
def databaseClear (db : DB) (consent : String) : DB :=
  if consent ≠ "YES" then db
  else { db with
    data_in_ram := [],
    files := fun _ => [],
    index := [],
    primary := none,
    backup := none,
    query_cache := [],
    db_cleared := true,
    has_pending_writes := false }

/-- The query-cache fingerprint
`` `${start_utc}_${end_utc}_${aggregation_type}` ``. -/
def cacheKey (start_time end_time : Int) (aggregation_type : String) : String :=
  toISOString start_time ++ "_" ++ toISOString end_time ++ "_" ++ aggregation_type

/-- `EasyTSDB.query`: return a truthy cached result for the fingerprint;
otherwise scan, aggregate (through the custom reducer when one is supplied,
else the built-in library), memoize and return.  A thrown
`Unsupported aggregation type` error propagates before the memoization. -/
def query (db : DB) (start_time end_time : Int) (aggregation_type : String)
    (cb_custom_aggregator : Option (List Point → AggResult)) : AggResult × DB :=
  let key := cacheKey start_time end_time aggregation_type
  let cached := (alookup db.query_cache key).getD .undef
  if truthy cached then (cached, db)
  else
    let data_points :=
      collectDataPointsForRange db.frame db.files db.index start_time end_time
    let result :=
      match cb_custom_aggregator with
      | some f => f data_points
      | none => performBuiltInAggregation data_points aggregation_type
    if isErr result then (result, db)
    else (result, { db with query_cache := upsert db.query_cache key (fun _ => result) result })

/-! ## Configuration options and the autosave debounce -/

/-- The constructor's option record (after merging). -/
structure Options where
  directory : String
  time_frame : Frame
  max_ram : Rat
  autosave_interval : Rat
deriving Repr

/-- `EasyTSDB.#defaults`: note `max_ram = 0.2 * 1024 * 1024 = 209715.2 =
2097152/10` and `autosave_interval = 600` seconds. -/
def defaults : Options :=
  { directory := "easy_timeseries_db"
    time_frame := .hour
    max_ram := mkRat 2097152 10
    autosave_interval := 600 }

/-- The option bag a caller may pass to the constructor. -/
structure OptionOverrides where
  directory : Option String := none
  time_frame : Option Frame := none
  max_ram : Option Rat := none
  autosave_interval : Option Rat := none

/-- `this.#user_options = { ...this.#defaults, ...options }`. -/
def mergeOptions (options : OptionOverrides) : Options :=
  { directory := options.directory.getD defaults.directory
    time_frame := options.time_frame.getD defaults.time_frame
    max_ram := options.max_ram.getD defaults.max_ram
    autosave_interval := options.autosave_interval.getD defaults.autosave_interval }

/-- The delay, in milliseconds, that `EasyTSDB.#resetAutosaveTimeout`
passes to `setTimeout` when `writePoint` re-arms the debounce.  The source
reads `this.#defaults.autosave_interval * 1000` — the `#defaults` record,
not the merged `#user_options` — so the parameter is ignored. -/
def autosaveDelayMs (_user_options : Options) : Rat :=
  defaults.autosave_interval * 1000

/-! ## Basic lemmas about the operations -/

@[simp] theorem persistIndex_frame (db : DB) : (persistIndex db).frame = db.frame := rfl
@[simp] theorem persistIndex_files (db : DB) : (persistIndex db).files = db.files := rfl
@[simp] theorem persistIndex_index (db : DB) : (persistIndex db).index = db.index := rfl
@[simp] theorem persistIndex_ram (db : DB) :
    (persistIndex db).data_in_ram = db.data_in_ram := rfl
@[simp] theorem persistIndex_pending (db : DB) :
    (persistIndex db).has_pending_writes = db.has_pending_writes := rfl
@[simp] theorem persistIndex_cache (db : DB) :
    (persistIndex db).query_cache = db.query_cache := rfl

@[simp] theorem persistIndexIfNeeded_frame (db : DB) :
    (persistIndexIfNeeded db).frame = db.frame := by
  unfold persistIndexIfNeeded; dsimp only; split <;> rfl

@[simp] theorem persistIndexIfNeeded_files (db : DB) :
    (persistIndexIfNeeded db).files = db.files := by
  unfold persistIndexIfNeeded; dsimp only; split <;> rfl

@[simp] theorem persistIndexIfNeeded_index (db : DB) :
    (persistIndexIfNeeded db).index = db.index := by
  unfold persistIndexIfNeeded; dsimp only; split <;> rfl

@[simp] theorem persistIndexIfNeeded_ram (db : DB) :
    (persistIndexIfNeeded db).data_in_ram = db.data_in_ram := by
  unfold persistIndexIfNeeded; dsimp only; split <;> rfl

@[simp] theorem persistIndexIfNeeded_pending (db : DB) :
    (persistIndexIfNeeded db).has_pending_writes = db.has_pending_writes := by
  unfold persistIndexIfNeeded; dsimp only; split <;> rfl

@[simp] theorem persistIndexIfNeeded_cache (db : DB) :
    (persistIndexIfNeeded db).query_cache = db.query_cache := by
  unfold persistIndexIfNeeded; dsimp only; split <;> rfl

/-- `flush` never touches the query cache. -/
theorem flush_query_cache (db : DB) : (flush db).query_cache = db.query_cache := by
  unfold flush
  split
  · rfl
  · simp

/-- `purge` never touches the query cache. -/
theorem purge_query_cache (db : DB) (older_than : Int) :
    (purge db older_than).query_cache = db.query_cache := by
  unfold purge
  dsimp only
  split
  · rfl
  · simp

/-- After any `flush` call the dirty flag is down. -/
theorem flush_pending (db : DB) : (flush db).has_pending_writes = false := by
  unfold flush
  split
  · next h => exact h.1
  · simp

theorem flush_frame (db : DB) : (flush db).frame = db.frame := by
  unfold flush
  split
  · rfl
  · simp

/-! ## Index membership lemmas -/

theorem mem_addMinute_self (ms : List Int) (m : Int) : m ∈ addMinute ms m := by
  unfold addMinute
  split
  · assumption
  · simp

theorem mem_addMinute_mono {ms : List Int} {m : Int} (m' : Int) (h : m ∈ ms) :
    m ∈ addMinute ms m' := by
  unfold addMinute
  split
  · exact h
  · simp [h]

/-- Unfolding of the shard-presence test into its three lookups. -/
theorem containsBucket_iff (f : Frame) (ix : Index) (b : Int) :
    containsBucket f ix b = true ↔
      ∃ hs ms, alookup ix (dayOfBucket f b) = some hs ∧
        alookup hs (hourOfBucket f b) = some ms ∧
        (f = .minute → minuteOfBucket b ∈ ms) := by
  unfold containsBucket
  constructor
  · intro h
    split at h
    · simp at h
    · next hs hday =>
        split at h
        · simp at h
        · next ms hhr =>
            refine ⟨hs, ms, hday, hhr, ?_⟩
            intro hf
            subst hf
            simpa using h
  · rintro ⟨hs, ms, hday, hhr, hmin⟩
    split
    · next hnone => rw [hday] at hnone; cases hnone
    · next hs' hday' =>
        rw [hday] at hday'
        injection hday' with hh
        subst hh
        split
        · next hnone => rw [hhr] at hnone; cases hnone
        · next ms' hhr' =>
            rw [hhr] at hhr'
            injection hhr' with hh2
            subst hh2
            cases f with
            | hour => rfl
            | minute => simpa using hmin rfl

/-- `#updateIndex` marks the bucket it is given. -/
theorem containsBucket_updateIndex_self (f : Frame) (b : Int) (ix : Index) :
    containsBucket f (updateIndex f b ix) b = true := by
  rw [containsBucket_iff]
  have hday : alookup (updateIndex f b ix) (dayOfBucket f b)
      = some (updateHours f b ((alookup ix (dayOfBucket f b)).getD [])) := by
    unfold updateIndex
    exact alookup_upsert_self _ _ _ _
  cases f with
  | hour =>
      have h4 : alookup
          (updateHours Frame.hour b ((alookup ix (dayOfBucket Frame.hour b)).getD []))
          (hourOfBucket Frame.hour b) = some [] := by
        simp only [updateHours]
        rw [alookup_upsert_self]
      exact ⟨_, [], hday, h4, fun hf => by simp at hf⟩
  | minute =>
      have h4 : alookup
          (updateHours Frame.minute b ((alookup ix (dayOfBucket Frame.minute b)).getD []))
          (hourOfBucket Frame.minute b)
          = some (addMinute ((alookup ((alookup ix (dayOfBucket Frame.minute b)).getD [])
              (hourOfBucket Frame.minute b)).getD []) (minuteOfBucket b)) := by
        simp only [updateHours]
        exact alookup_upsert_self _ _ _ _
      exact ⟨_, _, hday, h4, fun _ => mem_addMinute_self _ _⟩

/-- `#updateIndex` keeps every bucket that was already marked. -/
theorem containsBucket_updateIndex_mono (f : Frame) (b b' : Int) (ix : Index)
    (h : containsBucket f ix b = true) :
    containsBucket f (updateIndex f b' ix) b = true := by
  rw [containsBucket_iff] at h ⊢
  obtain ⟨hs, ms, hday, hhr, hmin⟩ := h
  unfold updateIndex
  by_cases hd : dayOfBucket f b' = dayOfBucket f b
  · rw [hd, alookup_upsert_self, hday, Option.getD_some]
    by_cases hh : hourOfBucket f b' = hourOfBucket f b
    · cases f with
      | hour =>
          have h4 : alookup (updateHours Frame.hour b' hs) (hourOfBucket Frame.hour b)
              = some [] := by
            simp only [updateHours]
            rw [hh, alookup_upsert_self]
          exact ⟨_, [], rfl, h4, fun hf => by simp at hf⟩
      | minute =>
          have h4 : alookup (updateHours Frame.minute b' hs) (hourOfBucket Frame.minute b)
              = some (addMinute ms (minuteOfBucket b')) := by
            simp only [updateHours]
            rw [hh, alookup_upsert_self, hhr, Option.getD_some]
          exact ⟨_, _, rfl, h4, fun _ => mem_addMinute_mono _ (hmin rfl)⟩
    · have h4 : alookup (updateHours f b' hs) (hourOfBucket f b) = some ms := by
        cases f with
        | hour =>
            simp only [updateHours]
            rw [alookup_upsert_ne _ _ _ _ _ hh]
            exact hhr
        | minute =>
            simp only [updateHours]
            rw [alookup_upsert_ne _ _ _ _ _ hh]
            exact hhr
      exact ⟨_, ms, rfl, h4, hmin⟩
  · rw [alookup_upsert_ne _ _ _ _ _ hd]
    exact ⟨hs, ms, hday, hhr, hmin⟩

/-! ## What `flush`'s loop does to the files and the index -/

theorem flushStep_files_mono (f : Frame) (ram : List (Int × List Point))
    (acc : Files × Index) (b : Int) (p : Point) (h : p ∈ acc.1 b) :
    p ∈ (ram.foldl (flushStep f) acc).1 b := by
  induction ram generalizing acc with
  | nil => exact h
  | cons e es ih =>
      rw [List.foldl_cons]
      apply ih
      show p ∈ (if b = e.1 then acc.1 b ++ e.2 else acc.1 b)
      by_cases hb : b = e.1
      · rw [if_pos hb]
        exact List.mem_append_left _ h
      · rw [if_neg hb]
        exact h

theorem flushStep_index_mono (f : Frame) (ram : List (Int × List Point))
    (acc : Files × Index) (b : Int) (h : containsBucket f acc.2 b = true) :
    containsBucket f (ram.foldl (flushStep f) acc).2 b = true := by
  induction ram generalizing acc with
  | nil => exact h
  | cons e es ih =>
      rw [List.foldl_cons]
      apply ih
      exact containsBucket_updateIndex_mono f b e.1 acc.2 h

theorem flushStep_files_lands (f : Frame) (ram : List (Int × List Point))
    (acc : Files × Index) (b : Int) (l : List Point) (p : Point)
    (hmem : (b, l) ∈ ram) (hp : p ∈ l) :
    p ∈ (ram.foldl (flushStep f) acc).1 b := by
  induction ram generalizing acc with
  | nil => simp at hmem
  | cons e es ih =>
      rw [List.foldl_cons]
      rcases List.mem_cons.mp hmem with he | he
      · apply flushStep_files_mono
        show p ∈ (if b = e.1 then acc.1 b ++ e.2 else acc.1 b)
        subst he
        simp [hp]
      · exact ih _ he

theorem flushStep_index_lands (f : Frame) (ram : List (Int × List Point))
    (acc : Files × Index) (b : Int) (l : List Point)
    (hmem : (b, l) ∈ ram) :
    containsBucket f (ram.foldl (flushStep f) acc).2 b = true := by
  induction ram generalizing acc with
  | nil => simp at hmem
  | cons e es ih =>
      rw [List.foldl_cons]
      rcases List.mem_cons.mp hmem with he | he
      · apply flushStep_index_mono
        show containsBucket f (updateIndex f e.1 acc.2) b = true
        subst he
        exact containsBucket_updateIndex_self f b acc.2
      · exact ih _ he

/-! ## The point-tracking invariant

Every point accepted by `writePoint` is in the RAM buffer of its bucket (with
the dirty flag up) or on disk in its bucket's shard file with the bucket
marked in the index — the spec's "present either in RB or on disk". -/

def PState (db : DB) (p : Point) : Prop :=
  (db.has_pending_writes = true ∧
    ∃ l, alookup db.data_in_ram (bucketOf db.frame p.t) = some l ∧ p ∈ l)
  ∨ (p ∈ db.files (bucketOf db.frame p.t) ∧
      containsBucket db.frame db.index (bucketOf db.frame p.t) = true)

theorem pstate_flush {db : DB} {p : Point} (h : PState db p) : PState (flush db) p := by
  unfold flush
  split
  · next hcond =>
      rcases h with ⟨hpend, _⟩ | hdisk
      · rw [hcond.1] at hpend; cases hpend
      · exact Or.inr hdisk
  · right
    constructor
    · simp only [persistIndexIfNeeded_files, persistIndexIfNeeded_frame]
      rcases h with ⟨_, l, hl, hp⟩ | ⟨hf, _⟩
      · exact flushStep_files_lands db.frame db.data_in_ram _ _ l p (alookup_isSome_mem hl) hp
      · exact flushStep_files_mono db.frame db.data_in_ram _ _ p hf
    · simp only [persistIndexIfNeeded_index, persistIndexIfNeeded_frame]
      rcases h with ⟨_, l, hl, _⟩ | ⟨_, hi⟩
      · exact flushStep_index_lands db.frame db.data_in_ram _ _ l (alookup_isSome_mem hl)
      · exact flushStep_index_mono db.frame db.data_in_ram _ _ hi

theorem pstate_writePoint_self (sz : List (Int × List Point) → Nat) (db : DB)
    (m : String) (v : Rat) (t : Int) :
    PState (writePoint sz db m v t) ⟨m, v, t⟩ := by
  unfold writePoint
  have hbase : PState { db with
      data_in_ram := ramPush db.data_in_ram (bucketOf db.frame t) ⟨m, v, t⟩,
      has_pending_writes := true } ⟨m, v, t⟩ := by
    have hlook : alookup (ramPush db.data_in_ram (bucketOf db.frame t) ⟨m, v, t⟩)
        (bucketOf db.frame t)
        = some ((alookup db.data_in_ram (bucketOf db.frame t)).getD [] ++ [⟨m, v, t⟩]) := by
      unfold ramPush
      exact alookup_upsert_self _ _ _ _
    exact Or.inl ⟨rfl, _, hlook, by simp⟩
  dsimp only
  split
  · exact pstate_flush hbase
  · exact hbase

theorem pstate_writePoint_mono (sz : List (Int × List Point) → Nat) (db : DB)
    (m : String) (v : Rat) (t : Int) {p : Point} (h : PState db p) :
    PState (writePoint sz db m v t) p := by
  unfold writePoint
  have hbase : PState { db with
      data_in_ram := ramPush db.data_in_ram (bucketOf db.frame t) ⟨m, v, t⟩,
      has_pending_writes := true } p := by
    rcases h with ⟨_, l, hl, hp⟩ | hdisk
    · left
      unfold ramPush
      by_cases hb : bucketOf db.frame t = bucketOf db.frame p.t
      · refine ⟨rfl, l ++ [⟨m, v, t⟩], ?_, List.mem_append_left _ hp⟩
        show alookup (upsert db.data_in_ram (bucketOf db.frame t)
            (fun ls => ls ++ [⟨m, v, t⟩]) []) (bucketOf db.frame p.t)
          = some (l ++ [⟨m, v, t⟩])
        rw [hb, alookup_upsert_self, hl, Option.getD_some]
      · refine ⟨rfl, l, ?_, hp⟩
        show alookup (upsert db.data_in_ram (bucketOf db.frame t)
            (fun ls => ls ++ [⟨m, v, t⟩]) []) (bucketOf db.frame p.t)
          = some l
        rw [alookup_upsert_ne _ _ _ _ _ hb]
        exact hl
    · exact Or.inr hdisk
  dsimp only
  split
  · exact pstate_flush hbase
  · exact hbase

theorem pstate_writeMany_mono (sz : List (Int × List Point) → Nat) (db : DB)
    (qs : List (String × Rat × Int)) {p : Point} (h : PState db p) :
    PState (writeMany sz db qs) p := by
  induction qs generalizing db with
  | nil => exact h
  | cons e es ih => exact ih _ (pstate_writePoint_mono sz db e.1 e.2.1 e.2.2 h)

/-- After a sequence of `writePoint` calls, every written point satisfies
the tracking invariant. -/
theorem pstate_writeMany (sz : List (Int × List Point) → Nat) (db : DB)
    (ps : List (String × Rat × Int)) (m : String) (v : Rat) (t : Int)
    (hmem : (m, v, t) ∈ ps) :
    PState (writeMany sz db ps) ⟨m, v, t⟩ := by
  obtain ⟨s, u, rfl⟩ := List.append_of_mem hmem
  unfold writeMany
  rw [List.foldl_append]
  simp only [List.foldl_cons]
  exact pstate_writeMany_mono sz _ u (pstate_writePoint_self sz _ m v t)

/-! ## The range scan visits every bucket between the rewound start and the end -/

theorem collectLoop_visits (f : Frame) (files : Files) (ix : Index) (B : Int)
    (hB : containsBucket f ix B = true) (p : Point) (hp : p ∈ files B) :
    ∀ (fuel : Nat) (current endT : Int), current ≤ endT →
      bucketOf f current ≤ B → B * msPerBucket f ≤ endT →
      (endT + 1 - current).toNat ≤ fuel →
      p ∈ collectLoop f files ix fuel current endT := by
  intro fuel
  induction fuel with
  | zero =>
      intro current endT h1 _ _ hfuel
      omega
  | succ n ih =>
      intro current endT h1 h2 h3 hfuel
      simp only [collectLoop]
      rw [if_pos h1]
      by_cases hb : bucketOf f current = B
      · apply List.mem_append_left
        rw [hb]
        simp [hB, hp]
      · apply List.mem_append_right
        have hlt : bucketOf f current < B := lt_of_le_of_ne h2 hb
        have hnext : current < (bucketOf f current + 1) * msPerBucket f :=
          lt_bucketOf_succ_mul f current
      -- the next bucket boundary is still at or before `B`'s start, hence before `endT`
        have hstep : (bucketOf f current + 1) * msPerBucket f ≤ B * msPerBucket f := by
          apply mul_le_mul_of_nonneg_right _ (le_of_lt (msPerBucket_pos f))
          omega
        apply ih
        · omega
        · rw [bucketOf_boundary]
          omega
        · exact h3
        · omega

/-- Any flushed point whose bucket is recorded in the index is returned by
`retrieveDataSeries` for every window containing its timestamp. -/
theorem retrieveDataSeries_mem (db : DB) (p : Point) (t0 t1 : Int)
    (hfile : p ∈ db.files (bucketOf db.frame p.t))
    (hix : containsBucket db.frame db.index (bucketOf db.frame p.t) = true)
    (h0 : t0 ≤ p.t) (h1 : p.t ≤ t1) :
    aliasPoint p ∈ retrieveDataSeries db t0 t1 := by
  unfold retrieveDataSeries collectDataPointsForRange
  apply List.mem_map_of_mem
  apply collectLoop_visits db.frame db.files db.index _ hix p hfile
  · have hms : (0:Int) < msPerDay := by decide
    omega
  · apply bucketOf_mono db.frame
    have hms : (0:Int) < msPerDay := by decide
    omega
  · exact le_trans (bucketOf_mul_le db.frame p.t) h1
  · exact le_refl _

/-! ## Shared concrete instances for the closed (witness/counterexample)
theorems -/

/-- RAM estimate that never triggers the overflow flush. -/
def szZero : List (Int × List Point) → Nat := fun _ => 0

/-- A freshly constructed hour-frame engine over an empty directory, after
`#loadIndex` initialized and persisted an empty index. -/
def freshDB : DB :=
  loadIndex ⟨.hour, defaults.max_ram, [], fun _ => [], [], "", none, none, false, false, []⟩

/-- 2024-03-15T00:00:00Z. -/
def tMidnight : Int := 1710460800000

/-- 2024-03-15T12:00:00Z. -/
def tNoon : Int := 1710504000000

/-- 2024-03-15T18:00:00Z. -/
def tEvening : Int := 1710525600000

/-- C1 — every point recorded by a sequence of `writePoint` calls and then
flushed is returned (under the `{measurement, value, timestamp}` alias) by
any subsequent `retrieveDataSeries` window containing its timestamp. -/
theorem C1_write_flush_retrieve
    (sz : List (Int × List Point) → Nat) (db0 : DB) (ps : List (String × Rat × Int))
    (m : String) (v : Rat) (t : Int) (t0 t1 : Int)
    (hmem : (m, v, t) ∈ ps) (h0 : t0 ≤ t) (h1 : t ≤ t1) :
    (⟨t, v, m⟩ : AliasedPoint) ∈ retrieveDataSeries (flush (writeMany sz db0 ps)) t0 t1 := by
  have hP : PState (flush (writeMany sz db0 ps)) ⟨m, v, t⟩ :=
    pstate_flush (pstate_writeMany sz db0 ps m v t hmem)
  have hpend := flush_pending (writeMany sz db0 ps)
  rcases hP with ⟨hpend2, _⟩ | ⟨hfile, hix⟩
  · rw [hpend] at hpend2
    cases hpend2
  · exact retrieveDataSeries_mem _ _ t0 t1 hfile hix h0 h1

/-- C1, instantiated: one temperature point written at 2024-03-15T12:00Z on
a fresh engine, flushed, and retrieved over that UTC day. -/
theorem C1_write_flush_retrieve_witness :
    ("temperature", (10 : Rat), tNoon) ∈ [("temperature", (10 : Rat), tNoon)] ∧
      tMidnight ≤ tNoon ∧ tNoon ≤ tMidnight + 86399999 ∧
      (⟨tNoon, 10, "temperature"⟩ : AliasedPoint) ∈
        retrieveDataSeries (flush (writeMany szZero freshDB [("temperature", 10, tNoon)]))
          tMidnight (tMidnight + 86399999) :=
  ⟨by decide, by decide, by decide,
    C1_write_flush_retrieve szZero freshDB [("temperature", 10, tNoon)]
      "temperature" 10 tNoon tMidnight (tMidnight + 86399999)
      (by decide) (by decide) (by decide)⟩

/-! ## Purge: day-granular removal -/

/-- The shard invariant of §3 of the spec: every point stored in a shard
file projects onto that shard's bucket.  `flush` establishes it for the
shards it writes; theorems about `purge` assume it. -/
def ShardInv (f : Frame) (files : Files) : Prop :=
  ∀ b p, p ∈ files b → bucketOf f p.t = b

/-- Well-formedness of the index keys as produced by `#updateIndex`:
hour keys lie in `[0, 24)` and minute keys in `[0, 60)`. -/
def IndexWF (ix : Index) : Prop :=
  ∀ e ∈ ix, ∀ he ∈ e.2, 0 ≤ he.1 ∧ he.1 < 24 ∧ ∀ mn ∈ he.2, 0 ≤ mn ∧ mn < 60

instance IndexWF.instDecidable (ix : Index) : Decidable (IndexWF ix) := by
  unfold IndexWF
  infer_instance

/-- Every point the scan returns comes from the shard file of some bucket
that the index marks present. -/
theorem collectLoop_provenance (f : Frame) (files : Files) (ix : Index) :
    ∀ (fuel : Nat) (current endT : Int) (q : Point),
      q ∈ collectLoop f files ix fuel current endT →
      ∃ b, containsBucket f ix b = true ∧ q ∈ files b := by
  intro fuel
  induction fuel with
  | zero =>
      intro current endT q hq
      simp [collectLoop] at hq
  | succ n ih =>
      intro current endT q hq
      simp only [collectLoop] at hq
      by_cases h1 : current ≤ endT
      · rw [if_pos h1] at hq
        rcases List.mem_append.mp hq with hl | hr
        · by_cases hc : containsBucket f ix (bucketOf f current) = true
          · rw [if_pos hc] at hl
            exact ⟨bucketOf f current, hc, hl⟩
          · rw [if_neg hc] at hl
            simp at hl
        · exact ih _ _ _ hr
      · rw [if_neg h1] at hq
        simp at hq

theorem purge_frame (db : DB) (T : Int) : (purge db T).frame = db.frame := by
  unfold purge
  dsimp only
  split <;> rfl

/-- `purge` drops exactly the dates strictly older than the threshold. -/
theorem purge_index_eq (db : DB) (T : Int) :
    (purge db T).index = db.index.filter (fun e => ¬ (e.1 * msPerDay < T)) := by
  unfold purge
  dsimp only
  split
  · next hemp =>
      have hall : ∀ e ∈ db.index, ¬ (e.1 * msPerDay < T) := by
        intro e he hc
        have : e ∈ db.index.filter (fun e => decide (e.1 * msPerDay < T)) :=
          List.mem_filter.mpr ⟨he, by simpa using hc⟩
        rw [List.isEmpty_iff] at hemp
        rw [hemp] at this
        simp at this
      exact (List.filter_eq_self.mpr (by intro e he; simpa using hall e he)).symm
  · simp

/-- Removing one dropped date's files never adds points to any shard. -/
theorem removeDayFiles_subset (f : Frame) (files0 : Files) (e : Int × DayHours)
    (b : Int) (q : Point) (h : q ∈ removeDayFiles f files0 e b) : q ∈ files0 b := by
  obtain ⟨d, hs0⟩ := e
  cases f with
  | hour =>
      simp only [removeDayFiles] at h
      revert h
      induction hs0 generalizing files0 with
      | nil => exact fun h => h
      | cons he hs ih =>
          intro h
          rw [List.foldl_cons] at h
          have h2 := ih _ h
          by_cases hb : b = d * 24 + he.1
          · rw [if_pos hb] at h2
            simp at h2
          · rw [if_neg hb] at h2
            exact h2
  | minute =>
      simp only [removeDayFiles] at h
      revert h
      induction hs0 generalizing files0 with
      | nil => exact fun h => h
      | cons he hs ih =>
          intro h
          rw [List.foldl_cons] at h
          have hmid := ih _ h
          clear ih h
          obtain ⟨hh, ms0⟩ := he
          dsimp only at hmid
          revert hmid
          induction ms0 generalizing files0 with
          | nil => exact fun h => h
          | cons mn ms ihm =>
              intro hmid
              rw [List.foldl_cons] at hmid
              have h3 := ihm _ hmid
              by_cases hb : b = d * 1440 + hh * 60 + mn
              · rw [if_pos hb] at h3
                simp at h3
              · rw [if_neg hb] at h3
                exact h3

theorem purge_files_subset (db : DB) (T : Int) (b : Int) (q : Point)
    (h : q ∈ (purge db T).files b) : q ∈ db.files b := by
  unfold purge at h
  dsimp only at h
  revert h
  split
  · exact fun h => h
  · intro h
    simp only [persistIndex_files] at h
    revert h
    generalize db.files = files0
    induction db.index.filter (fun e => decide (e.1 * msPerDay < T)) generalizing files0 with
    | nil => exact fun h => h
    | cons e ds ih =>
        intro h
        rw [List.foldl_cons] at h
        exact removeDayFiles_subset db.frame files0 e b q (ih _ h)

/-- `⌊(d·n + r) / n⌋ = d` for `0 ≤ r < n`. -/
theorem fdiv_mul_add (d r n : Int) (hn : 0 < n) (h0 : 0 ≤ r) (h1 : r < n) :
    Int.fdiv (d * n + r) n = d := by
  rw [Int.fdiv_eq_ediv _ (le_of_lt hn), add_comm,
    Int.add_mul_ediv_right r d (ne_of_gt hn),
    Int.ediv_eq_zero_of_lt h0 h1, zero_add]

/-- Removing the files of a date different from a bucket's own date leaves
that bucket's shard untouched (given well-formed hour/minute keys). -/
theorem removeDayFiles_other (f : Frame) (files0 : Files) (e : Int × DayHours)
    (b : Int)
    (hwf : ∀ he ∈ e.2, 0 ≤ he.1 ∧ he.1 < 24 ∧ ∀ mn ∈ he.2, 0 ≤ mn ∧ mn < 60)
    (hne : e.1 ≠ dayOfBucket f b) :
    removeDayFiles f files0 e b = files0 b := by
  obtain ⟨d, hs0⟩ := e
  simp only at hwf hne
  cases f with
  | hour =>
      simp only [removeDayFiles]
      revert hwf
      induction hs0 generalizing files0 with
      | nil => intro _; rfl
      | cons he hs ih =>
          intro hwf
          rw [List.foldl_cons, ih _ (fun x hx => hwf x (List.mem_cons_of_mem _ hx))]
          obtain ⟨hlo, hhi, -⟩ := hwf he (List.mem_cons_self _ _)
          have hb : ¬ (b = d * 24 + he.1) := by
            intro hc
            apply hne
            rw [hc]
            unfold dayOfBucket bucketsPerDay
            exact (fdiv_mul_add d he.1 24 (by decide) hlo hhi).symm
          show (if b = d * 24 + he.1 then [] else files0 b) = files0 b
          rw [if_neg hb]
  | minute =>
      simp only [removeDayFiles]
      revert hwf
      induction hs0 generalizing files0 with
      | nil => intro _; rfl
      | cons he hs ih =>
          intro hwf
          rw [List.foldl_cons, ih _ (fun x hx => hwf x (List.mem_cons_of_mem _ hx))]
          obtain ⟨hlo, hhi, hmn⟩ := hwf he (List.mem_cons_self _ _)
          clear ih hwf
          obtain ⟨hh, ms0⟩ := he
          simp only at hlo hhi hmn
          dsimp only
          revert hmn
          induction ms0 generalizing files0 with
          | nil => intro _; rfl
          | cons mn ms ihm =>
              intro hmn
              rw [List.foldl_cons, ihm _ (fun x hx => hmn x (List.mem_cons_of_mem _ hx))]
              obtain ⟨hmlo, hmhi⟩ := hmn mn (List.mem_cons_self _ _)
              have hb : ¬ (b = d * 1440 + hh * 60 + mn) := by
                intro hc
                apply hne
                rw [hc]
                unfold dayOfBucket bucketsPerDay
                rw [add_assoc]
                exact (fdiv_mul_add d (hh * 60 + mn) 1440 (by decide)
                  (by omega) (by omega)).symm
              show (if b = d * 1440 + hh * 60 + mn then [] else files0 b) = files0 b
              rw [if_neg hb]

/-- `purge` leaves the shard files of surviving dates untouched. -/
theorem purge_files_other (db : DB) (T : Int) (b : Int)
    (hwf : IndexWF db.index)
    (hkeep : ¬ (dayOfBucket db.frame b * msPerDay < T)) :
    (purge db T).files b = db.files b := by
  unfold purge
  dsimp only
  split
  · rfl
  · simp only [persistIndex_files]
    have hsub : ∀ e ∈ db.index.filter (fun e => decide (e.1 * msPerDay < T)),
        (∀ he ∈ e.2, 0 ≤ he.1 ∧ he.1 < 24 ∧ ∀ mn ∈ he.2, 0 ≤ mn ∧ mn < 60) ∧
          e.1 ≠ dayOfBucket db.frame b := by
      intro e he
      obtain ⟨hin, hpred⟩ := List.mem_filter.mp he
      refine ⟨hwf e hin, ?_⟩
      intro hc
      apply hkeep
      rw [← hc]
      simpa using hpred
    generalize hds : db.index.filter (fun e => decide (e.1 * msPerDay < T)) = ds at hsub
    clear hds
    generalize db.files = files0
    induction ds generalizing files0 with
    | nil => rfl
    | cons e ds ih =>
        rw [List.foldl_cons]
        have h1 := hsub e (List.mem_cons_self _ _)
        rw [ih (fun x hx => hsub x (List.mem_cons_of_mem _ hx)) _ ]
        exact removeDayFiles_other db.frame files0 e b h1.1 h1.2

/-- Lookups survive a key-predicate filter when the key satisfies it. -/
theorem alookup_filter_keep {κ β : Type _} [DecidableEq κ] (p : κ → Bool)
    {l : List (κ × β)} {k : κ} {v : β}
    (h : alookup l k = some v) (hp : p k = true) :
    alookup (l.filter (fun e => p e.1)) k = some v := by
  induction l with
  | nil => simp at h
  | cons e es ih =>
      rw [alookup_cons] at h
      by_cases hek : e.1 = k
      · rw [if_pos hek] at h
        rw [List.filter_cons_of_pos (by simpa [hek] using hp)]
        rw [alookup_cons, if_pos hek]
        exact h
      · rw [if_neg hek] at h
        by_cases hpe : p e.1
        · rw [List.filter_cons_of_pos (by simpa using hpe)]
          rw [alookup_cons, if_neg hek]
          exact ih h
        · rw [List.filter_cons_of_neg (by simpa using hpe)]
          exact ih h

/-- C5 (amended) — `purge(t)` removes whole UTC days whose midnight precedes
`t`.  Consequently (i) after the purge no returned point is older than `t`
(every returned timestamp is at or after `t`), and (ii) any stored point
whose UTC day was not dropped (day midnight at or after `t`) keeps its
visibility in `retrieveDataSeries`. -/
theorem C5_purge_day_granularity (db : DB) (T t0 t1 : Int)
    (hshard : ShardInv db.frame db.files) (hwf : IndexWF db.index) :
    (∀ q ∈ retrieveDataSeries (purge db T) t0 t1, T ≤ q.timestamp) ∧
    (∀ p b, p ∈ db.files b → containsBucket db.frame db.index b = true →
      ¬ (dayOfBucket db.frame b * msPerDay < T) →
      t0 ≤ p.t → p.t ≤ t1 →
      aliasPoint p ∈ retrieveDataSeries (purge db T) t0 t1) := by
  constructor
  · intro q hq
    unfold retrieveDataSeries collectDataPointsForRange at hq
    obtain ⟨q', hq', halias⟩ := List.mem_map.mp hq
    obtain ⟨b, hc, hf⟩ := collectLoop_provenance _ _ _ _ _ _ _ hq'
    have hfo : q' ∈ db.files b := purge_files_subset db T b q' hf
    rw [purge_frame] at hc
    rw [purge_index_eq] at hc
    obtain ⟨hs, ms, hday, hhr, hmin⟩ := (containsBucket_iff _ _ _).mp hc
    obtain ⟨hpred, hday0⟩ :=
      alookup_filter_key (fun d => decide ¬ (d * msPerDay < T)) hday
    have hkeep : T ≤ dayOfBucket db.frame b * msPerDay := by
      have := of_decide_eq_true hpred
      omega
    have hb := hshard b q' hfo
    have h1 := bucketOf_mul_le db.frame q'.t
    rw [hb] at h1
    have h2 := dayOfBucket_mul_le db.frame b
    have : T ≤ q'.t := le_trans hkeep (le_trans h2 h1)
    rw [← halias]
    exact this
  · intro p b hfile hix hkeep h0 h1
    have hb : bucketOf db.frame p.t = b := hshard b p hfile
    apply retrieveDataSeries_mem
    · rw [purge_frame, hb, purge_files_other db T b hwf hkeep]
      exact hfile
    · rw [purge_frame, hb, purge_index_eq]
      obtain ⟨hs, ms, hday, hhr, hmin⟩ := (containsBucket_iff _ _ _).mp hix
      exact (containsBucket_iff _ _ _).mpr
        ⟨hs, ms, alookup_filter_keep (fun d => decide ¬ (d * msPerDay < T)) hday
          (by simpa using hkeep), hhr, hmin⟩
    · exact h0
    · exact h1

/-- One flushed heart-rate point at 2024-03-15T18:00Z (bucket 475146, day
19797 hour 18), exactly as `flush` lays it out on disk. -/
def dbC5 : DB :=
  ⟨.hour, defaults.max_ram, [],
    fun b => if b = 475146 then [⟨"hr", 70, tEvening⟩] else [],
    [(19797, [(18, [])])], "", none, none, false, false, []⟩

/-- C5 (counterexample to the claim as stated) — the point at 18:00Z is not
older than the noon threshold, yet `purge(noon)` removes it: its UTC day's
midnight precedes the threshold, so the whole day file is deleted. -/
theorem C5_counterexample :
    ((⟨tEvening, 70, "hr"⟩ : AliasedPoint) ∈
        retrieveDataSeries dbC5 (tEvening - 3600000) (tEvening + 3600000)) ∧
      ¬ (tEvening < tNoon) ∧
      retrieveDataSeries (purge dbC5 tNoon) (tEvening - 3600000) (tEvening + 3600000)
        = [] :=
  ⟨by decide, by decide, by decide⟩

/-- C5 (amended), instantiated at `dbC5` and the noon threshold. -/
theorem C5_purge_day_granularity_witness :
    ShardInv dbC5.frame dbC5.files ∧ IndexWF dbC5.index ∧
      ((∀ q ∈ retrieveDataSeries (purge dbC5 tNoon) tMidnight (tMidnight + 86399999),
          tNoon ≤ q.timestamp) ∧
        (∀ p b, p ∈ dbC5.files b → containsBucket dbC5.frame dbC5.index b = true →
          ¬ (dayOfBucket dbC5.frame b * msPerDay < tNoon) →
          tMidnight ≤ p.t → p.t ≤ tMidnight + 86399999 →
          aliasPoint p ∈ retrieveDataSeries (purge dbC5 tNoon) tMidnight
            (tMidnight + 86399999))) := by
  have hsh : ShardInv dbC5.frame dbC5.files := by
    intro b p hp
    change p ∈ (if b = 475146 then [(⟨"hr", 70, tEvening⟩ : Point)] else []) at hp
    by_cases hb : b = 475146
    · rw [if_pos hb] at hp
      subst hb
      have hpe : p = ⟨"hr", 70, tEvening⟩ := by simpa using hp
      subst hpe
      decide
    · rw [if_neg hb] at hp
      simp at hp
  exact ⟨hsh, by decide,
    C5_purge_day_granularity dbC5 tNoon tMidnight (tMidnight + 86399999) hsh (by decide)⟩

/-! ## The remaining engine claims -/

/-- C4 (amended) — every built-in aggregation of an empty point sequence,
including `"raw"`, returns `undefined`: the early exit
`if (data_points.length === 0) return undefined;` precedes the `raw`
branch. -/
theorem C4_empty_aggregation_undefined (aggregation_type : String) :
    performBuiltInAggregation [] aggregation_type = .undef := rfl

/-- C4 (counterexample to the claim as stated) — `"raw"` applied to the
empty sequence yields `undefined`, not an empty list. -/
theorem C4_counterexample :
    performBuiltInAggregation [] "raw" = .undef ∧
      AggResult.undef ≠ .points [] :=
  ⟨rfl, by decide⟩

/-- C3 (amended) — after `#persistIndex`, if the primary envelope is then
corrupted (its checksum no longer validates, or it is unreadable),
`#loadIndex` adopts the backup envelope, yielding an index equal to the
persisted one — but it does NOT re-persist the primary envelope: both
envelope slots are left exactly as found.  (Only when both envelopes are
invalid does the recovery ladder write fresh envelopes.) -/
theorem C3_backup_recovery (db : DB) (c : Option Envelope)
    (hbad : validEnvelope db.frame c = false) :
    (loadIndex { persistIndex db with primary := c }).index = db.index ∧
    (loadIndex { persistIndex db with primary := c }).primary = c ∧
    (loadIndex { persistIndex db with primary := c }).backup
      = some (mkEnvelope db.frame db.index) := by
  unfold loadIndex loadIndexBackup persistIndex
  cases c with
  | none =>
      dsimp only
      simp only [validEnvelope_mkEnvelope]
      exact ⟨rfl, rfl, rfl⟩
  | some e =>
      dsimp only
      simp only [hbad, validEnvelope_mkEnvelope]
      exact ⟨rfl, rfl, rfl⟩

/-- C3 (counterexample to the claim as stated) — on a concrete engine whose
primary envelope is gone, recovery adopts the backup but the primary slot is
still empty afterwards: nothing was re-persisted. -/
theorem C3_counterexample :
    (loadIndex { persistIndex dbC5 with primary := none }).index = dbC5.index ∧
      (loadIndex { persistIndex dbC5 with primary := none }).primary = none :=
  ⟨by decide, by decide⟩

/-- C3 (amended), instantiated: the persisted one-day index of `dbC5` with
the primary envelope removed. -/
theorem C3_backup_recovery_witness :
    validEnvelope dbC5.frame none = false ∧
      ((loadIndex { persistIndex dbC5 with primary := none }).index = dbC5.index ∧
        (loadIndex { persistIndex dbC5 with primary := none }).primary = none ∧
        (loadIndex { persistIndex dbC5 with primary := none }).backup
          = some (mkEnvelope dbC5.frame dbC5.index)) :=
  ⟨rfl, C3_backup_recovery dbC5 none rfl⟩

/-- C7 (amended) — `databaseClear` with consent resets the query cache (and
`databaseRestore`, when it proceeds, clears it through its internal
`databaseClear("YES")`), but `flush` and `purge` leave the cache untouched:
results cached before a flush or a purge keep being served to identical
queries. -/
theorem C7_cache_lifecycle (db : DB) (T : Int) :
    (flush db).query_cache = db.query_cache ∧
    (purge db T).query_cache = db.query_cache ∧
    (databaseClear db "YES").query_cache = [] :=
  ⟨flush_query_cache db, purge_query_cache db T, rfl⟩

/-- `dbC5` with a pending unflushed point for the next hour and a stale
truthy entry in the query cache under the day-count fingerprint. -/
def dbC7 : DB :=
  { dbC5 with
    data_in_ram := [(475147, [⟨"hr", 80, tEvening + 3600000⟩])],
    has_pending_writes := true,
    query_cache := [(cacheKey tMidnight (tMidnight + 86399999) "count", .num 999)] }

/-- C7 (counterexample to the claim as stated) — `flush` does not remove
cached query results: after flushing a second point, the identical query
still returns the stale pre-flush value 999 even though the aggregation of
the data now on disk is 2. -/
theorem C7_counterexample :
    (flush dbC7).query_cache
        = [(cacheKey tMidnight (tMidnight + 86399999) "count", .num 999)] ∧
      (query (flush dbC7) tMidnight (tMidnight + 86399999) "count" none).1 = .num 999 ∧
      performBuiltInAggregation
          (collectDataPointsForRange (flush dbC7).frame (flush dbC7).files
            (flush dbC7).index tMidnight (tMidnight + 86399999)) "count"
        = .num 2 :=
  ⟨by decide, by decide, by decide⟩

/-- C8 (the code, evaluated at the failing configuration) — with a
user-configured `autosave_interval` of 120 s, the debounce re-armed by
`writePoint` passes the DEFAULT 600 000 ms to `setTimeout`, not the
configured 120 000 ms: `#resetAutosaveTimeout` reads
`this.#defaults.autosave_interval`, never the merged `#user_options`. -/
theorem C8_autosave_uses_defaults :
    autosaveDelayMs (mergeOptions { autosave_interval := some 120 }) = 600 * 1000 ∧
      (mergeOptions { autosave_interval := some 120 }).autosave_interval * 1000
        = 120 * 1000 ∧
      (600 * 1000 : Rat) ≠ 120 * 1000 :=
  ⟨rfl, rfl, by norm_num⟩

/-- C9 — an accepted but not yet flushed point is invisible to reads: while
the RAM estimate stays within the ceiling, `writePoint` touches neither the
shard files nor the index, and `retrieveDataSeries` and `query` return
exactly what they returned before the write — the range scan reads only
shard files recorded in the index, never the in-RAM pending buffer. -/
theorem C9_unflushed_point_invisible (sz : List (Int × List Point) → Nat) (db : DB)
    (m : String) (v : Rat) (t : Int) (s e : Int) (agg : String)
    (cb : Option (List Point → AggResult))
    (hram : ¬ (db.max_ram <
      (sz (ramPush db.data_in_ram (bucketOf db.frame t) ⟨m, v, t⟩) : Rat))) :
    (writePoint sz db m v t).files = db.files ∧
    (writePoint sz db m v t).index = db.index ∧
    retrieveDataSeries (writePoint sz db m v t) s e = retrieveDataSeries db s e ∧
    (query (writePoint sz db m v t) s e agg cb).1 = (query db s e agg cb).1 := by
  have hw : writePoint sz db m v t = { db with
      data_in_ram := ramPush db.data_in_ram (bucketOf db.frame t) ⟨m, v, t⟩,
      has_pending_writes := true } := by
    unfold writePoint
    dsimp only
    rw [if_neg hram]
  rw [hw]
  refine ⟨rfl, rfl, rfl, ?_⟩
  unfold query
  dsimp only
  split
  · rfl
  · split
    · rfl
    · rfl

/-- C9, instantiated with a size estimate of zero bytes on the one-point
engine: the write of a new point changes no read result. -/
theorem C9_unflushed_point_invisible_witness :
    (¬ (dbC5.max_ram <
        (szZero (ramPush dbC5.data_in_ram (bucketOf dbC5.frame tNoon) ⟨"hr", 75, tNoon⟩) : Rat))) ∧
      ((writePoint szZero dbC5 "hr" 75 tNoon).files = dbC5.files ∧
        (writePoint szZero dbC5 "hr" 75 tNoon).index = dbC5.index ∧
        retrieveDataSeries (writePoint szZero dbC5 "hr" 75 tNoon) tMidnight
            (tMidnight + 86399999)
          = retrieveDataSeries dbC5 tMidnight (tMidnight + 86399999) ∧
        (query (writePoint szZero dbC5 "hr" 75 tNoon) tMidnight (tMidnight + 86399999)
            "count" none).1
          = (query dbC5 tMidnight (tMidnight + 86399999) "count" none).1) :=
  ⟨by decide,
    C9_unflushed_point_invisible szZero dbC5 "hr" 75 tNoon tMidnight
      (tMidnight + 86399999) "count" none (by decide)⟩

/-- A truthy result is never the thrown `Unsupported aggregation type`
error. -/
theorem truthy_not_err (r : AggResult) (h : truthy r = true) : isErr r = false := by
  cases r <;> simp [truthy, isErr] at h ⊢

/-- Whenever `query` returns a truthy result, that very result is stored in
the cache under the fingerprint of the call. -/
theorem query_caches_truthy (db : DB) (s e : Int) (agg : String)
    (cb : Option (List Point → AggResult))
    (h : truthy (query db s e agg cb).1 = true) :
    alookup ((query db s e agg cb).2).query_cache (cacheKey s e agg)
      = some ((query db s e agg cb).1) := by
  unfold query at *
  dsimp only at *
  by_cases hc : truthy ((alookup db.query_cache (cacheKey s e agg)).getD .undef)
  · rw [if_pos hc] at h ⊢
    dsimp only
    cases hl : alookup db.query_cache (cacheKey s e agg) with
    | none => rw [hl] at hc; simp [truthy] at hc
    | some r => simp [hl]
  · rw [if_neg hc] at h ⊢
    generalize hR : (match cb with
      | some f => f (collectDataPointsForRange db.frame db.files db.index s e)
      | none => performBuiltInAggregation
          (collectDataPointsForRange db.frame db.files db.index s e) agg) = R at h ⊢
    by_cases he : isErr R = true
    · rw [if_pos he] at h
      dsimp only at h
      rw [truthy_not_err _ h] at he
      simp at he
    · rw [if_neg he] at h ⊢
      dsimp only at h ⊢
      rw [alookup_upsert_self]

/-- A cache hit with a truthy entry returns that entry and leaves the
engine untouched — whatever reducer is supplied. -/
theorem query_cache_hit (db : DB) (s e : Int) (agg : String)
    (cb : Option (List Point → AggResult)) (r : AggResult)
    (hl : alookup db.query_cache (cacheKey s e agg) = some r)
    (hr : truthy r = true) :
    query db s e agg cb = (r, db) := by
  unfold query
  dsimp only
  rw [hl]
  exact if_pos hr

/-- C10 — the cache fingerprint is built only from the two ISO timestamps
and the aggregation key, never from the reducer: after a first call that
produced a truthy result, the identical call returns that cached result and
state unchanged, even with a different custom reducer supplied. -/
theorem C10_cache_ignores_reducer (db : DB) (s e : Int) (agg : String)
    (cb1 cb2 : Option (List Point → AggResult))
    (h : truthy (query db s e agg cb1).1 = true) :
    query (query db s e agg cb1).2 s e agg cb2
      = ((query db s e agg cb1).1, (query db s e agg cb1).2) :=
  query_cache_hit _ s e agg cb2 _ (query_caches_truthy db s e agg cb1 h) h

/-- C10, instantiated: "count" over the one-point day, first with the
built-in reducer, then re-asked with a custom reducer that would return 42;
the cached 1 is returned instead. -/
theorem C10_cache_ignores_reducer_witness :
    truthy (query dbC5 tMidnight (tMidnight + 86399999) "count" none).1 = true ∧
      query (query dbC5 tMidnight (tMidnight + 86399999) "count" none).2
          tMidnight (tMidnight + 86399999) "count" (some (fun _ => .num 42))
        = ((query dbC5 tMidnight (tMidnight + 86399999) "count" none).1,
           (query dbC5 tMidnight (tMidnight + 86399999) "count" none).2) :=
  ⟨by decide,
    C10_cache_ignores_reducer dbC5 tMidnight (tMidnight + 86399999) "count" none
      (some (fun _ => .num 42)) (by decide)⟩

/-! ## Backup and restore (C6)

`databaseBackup`/`databaseRestore` manipulate files by full string path, and
the claim's failure is precisely a path confusion, so this model keeps a
flat string-pathed file system. -/

namespace BackupModel

/-- Contents of the (flat) file system by full path.  `Storage.ReadFile`
returns `""` for a missing file — the core `readFile` maps a failed
`readFileSync` to the empty string — and every caller treats `""` as
falsy. -/
abbrev FileSys := List (String × String)

def readFile (fs : FileSys) (path : String) : String :=
  (alookup fs path).getD ""

def writeFile (fs : FileSys) (path : String) (data : String) : FileSys :=
  upsert fs path (fun _ => data) data

/-- `Storage.ListDirectory`: the names (path remainders) of the entries
directly under `dirname` (nested directories under the data root do not
occur; spec §6). -/
def listDirectory (fs : FileSys) (dirname : String) : List String :=
  fs.filterMap (fun e =>
    if e.1.toList.take (dirname ++ "/").toList.length = (dirname ++ "/").toList then
      some (String.mk (e.1.toList.drop (dirname ++ "/").toList.length))
    else none)

/-- The object `databaseBackup` assembles before serializing it.
`data_points` values are kept as raw shard JSON text: the
`JSON.parse`/`JSON.stringify` round trip through the backup object is the
identity on well-formed shard files. -/
structure Backup where
  database_directory : String
  data_points : List (String × String)
  index : Option Index
deriving Repr

/-- The serialized backup payload.  The source writes
`JSON.stringify(backup, null, 2)`; the exact text is opaque to every claim
because `databaseRestore` reads a different path than the one this payload
is written to, so the serializer is modelled as a total function of the
backup object. -/
def stringifyBackup (b : Backup) : String :=
  b.database_directory ++ ":" ++
    String.intercalate "," (b.data_points.map (fun e => e.1))

/-- `EasyTSDB.databaseBackup`: ensure the backup directory, assemble the
backup object from the data directory's listing, and write the serialized
backup.  Two faithful slips of the source: for every shard name the data is
read from `full_path` — the backup file's own location
`easy_tsdb_backups/<backup_path>` — instead of the shard's path, and the
serialized backup is written to the bare `backup_path`, not to
`full_path`. -/
def databaseBackup (fs : FileSys) (directory : String) (ix : Index)
    (backup_path : String) (include_index : Bool) : Backup × FileSys :=
  let full_path := "easy_tsdb_backups/" ++ backup_path
  let files := listDirectory fs directory
  let data_points := files.foldl
    (fun acc file =>
      if file = "index.json" ∨ file = "index_backup.json" then acc
      else
        let data := readFile fs full_path
        if data ≠ "" then acc ++ [(file, data)] else acc)
    []
  let backup : Backup :=
    { database_directory := directory
      data_points := data_points
      index := if include_index then some ix else none }
  (backup, writeFile fs backup_path (stringifyBackup backup))

/-- The read with which `databaseRestore` begins:
`JSON.parse(Storage.ReadFile(full_path))` with
`full_path = easy_tsdb_backups/<backup_path>`.  When that file is absent
the read yields `""`, `JSON.parse("")` throws, and the surrounding `catch`
aborts the restore leaving every piece of engine state unchanged.  This
predicate is `true` exactly when the restore aborts this way. -/
def databaseRestoreAborts (fs : FileSys) (backup_path : String) : Bool :=
  readFile fs ("easy_tsdb_backups/" ++ backup_path) = ""

end BackupModel

/-- A data directory holding one flushed shard file, and no previous backup
anywhere. -/
def fsC6 : BackupModel.FileSys :=
  [("easy_timeseries_db/2024_03_15_18.json",
    "[\x7b\"m\":\"hr\",\"v\":70,\"t\":1710525600000\x7d]")]

/-- C6 (the code, evaluated at the failing input) — with one shard on disk
and `include_index = true`: the directory listing does see the shard, yet
the assembled backup's `data_points` is empty, because each shard's
contents are read from the backup file's own (nonexistent) path; and the
subsequent `databaseRestore("YES", same path)` aborts outright, because it
reads `easy_tsdb_backups/easy_tsdb_backup.json` while the backup was
written to `easy_tsdb_backup.json`.  The engine is not returned to the
backed-up state — nothing was captured and nothing is restored. -/
theorem C6_backup_restore_broken :
    BackupModel.listDirectory fsC6 "easy_timeseries_db" = ["2024_03_15_18.json"] ∧
      (BackupModel.databaseBackup fsC6 "easy_timeseries_db" [(19797, [(18, [])])]
          "easy_tsdb_backup.json" true).1.data_points = [] ∧
      BackupModel.databaseRestoreAborts
          (BackupModel.databaseBackup fsC6 "easy_timeseries_db" [(19797, [(18, [])])]
            "easy_tsdb_backup.json" true).2 "easy_tsdb_backup.json" = true :=
  ⟨by decide, by decide, by decide⟩

/-! ## The streaming JSON codec of the async pipeline (C2)

`nd_streamJsonWrite` emits one meta record and then one item record per
array element; `nd_parseJsonAsync` folds the records back into an object.
Each line's `JSON.stringify`/`JSON.parse` round trip is collapsed: a line
is modelled as the value it serializes.  The cooperative chunking
(`setTimeout`, time slices, the 512-byte write buffer) only schedules the
same writes and parses and does not affect the final content. -/

namespace Codec

/-- JSON-representable JavaScript values (the codec's inputs and outputs;
`undefined` never occurs in encoder output and is not modelled). -/
inductive JVal where
  | num (q : Rat)
  | str (s : String)
  | boolean (b : Bool)
  | null
  | arr (elems : List JVal)
  | obj (fields : List (String × JVal))

/-- The keys of `RESERVED_MSET`. -/
def RESERVED : List String := ["type", "__arrays", "data", "meta", "T", "A", "D", "M"]

/-- The source tests reservation with the JavaScript `in` operator
(`key in RESERVED_MSET`), which also finds properties inherited from
`Object.prototype`; a field named e.g. `"toString"` is therefore treated as
reserved too. -/
def OBJECT_PROTOTYPE_PROPS : List String :=
  ["constructor", "hasOwnProperty", "isPrototypeOf", "propertyIsEnumerable",
   "toLocaleString", "toString", "valueOf", "__defineGetter__", "__defineSetter__",
   "__lookupGetter__", "__lookupSetter__", "__proto__"]

def inReservedMSet (key : String) : Bool :=
  decide (key ∈ RESERVED) || decide (key ∈ OBJECT_PROTOTYPE_PROPS)

/-- `REV[k] || k`: long token names to their one-letter forms. -/
def REV (k : String) : String :=
  if k = "type" then "T"
  else if k = "__arrays" then "A"
  else if k = "data" then "D"
  else if k = "meta" then "M"
  else k

/-- `TOK[k]`: one-letter forms back to long names (`none` when `k` is not a
token key). -/
def tokTarget (k : String) : Option String :=
  if k = "T" then some "type"
  else if k = "A" then some "__arrays"
  else if k = "D" then some "data"
  else if k = "M" then some "meta"
  else none

/-- `obj[k] = v`: replace in place when present, else append. -/
def setField (fields : List (String × JVal)) (k : String) (v : JVal) :
    List (String × JVal) :=
  upsert fields k (fun _ => v) v

/-- JavaScript falsiness of a `JVal` (for the `!metadata._u` test). -/
def jsFalsy : JVal → Bool
  | .num q => decide (q = 0)
  | .str s => decide (s = "")
  | .boolean b => !b
  | .null => true
  | _ => false

/-- `if (!metadata._u) metadata._u = \x7b\x7d; metadata._u[key] = val`.  (When a
user field already placed a truthy primitive at `_u`, the property
assignment on a primitive is a no-op/strict-mode `TypeError`; the corner is
outside every claim and modelled as leaving the metadata unchanged.) -/
def uSet (metadata : List (String × JVal)) (key : String) (val : JVal) :
    List (String × JVal) :=
  match alookup metadata "_u" with
  | some (.obj u) => setField metadata "_u" (.obj (setField u key val))
  | some w =>
      if jsFalsy w then setField metadata "_u" (.obj [(key, val)]) else metadata
  | none => metadata ++ [("_u", .obj [(key, val)])]

/-- `if (!metadata.__arrays) metadata.__arrays = []; metadata.__arrays.push(key)`.
Only this function ever creates the `__arrays` key (a user field of that
name is reserved), so the existing value is always an array. -/
def pushArraysName (metadata : List (String × JVal)) (key : String) :
    List (String × JVal) :=
  match alookup metadata "__arrays" with
  | some (.arr names) => setField metadata "__arrays" (.arr (names ++ [.str key]))
  | some _ => metadata
  | none => metadata ++ [("__arrays", .arr [.str key])]

/-- The encoder's array test
`val && typeof val === 'object' && (val.length >>> 0) === val.length && val.length`:
a non-empty array passes; scalars, strings, `null`, empty arrays and plain
objects fail (strings are not `typeof 'object'`; a plain object has no
`length`).  The pathological non-array object carrying its own numeric
`length` field is outside every claim and not modelled. -/
def isArrayField : JVal → Bool
  | .arr (_ :: _) => true
  | _ => false

/-- `safeCopyToMetadata(metadata, key, val, arr_data)`: reserved keys
(including inherited prototype names) are parked under the `_u` sub-map;
non-empty arrays are replaced by their length in the metadata, recorded in
`__arrays` and queued in `arr_data`; everything else is copied verbatim. -/
def safeCopyToMetadata (metadata : List (String × JVal))
    (arr_data : List (String × List JVal)) (key : String) (val : JVal) :
    List (String × JVal) × List (String × List JVal) :=
  if inReservedMSet key then
    (uSet metadata key val, arr_data)
  else
    match val with
    | .arr (e :: es) =>
        (pushArraysName (setField metadata key (.num ((e :: es).length : Rat))) key,
         arr_data ++ [(key, e :: es)])
    | v => (setField metadata key v, arr_data)

/-- The metadata pass of `nd_streamJsonWrite`: fold `safeCopyToMetadata`
over the object's fields in enumeration order, starting from
`\x7b type: 'meta' \x7d`. -/
def buildMeta (x : List (String × JVal)) :
    List (String × JVal) × List (String × List JVal) :=
  x.foldl (fun acc kv => safeCopyToMetadata acc.1 acc.2 kv.1 kv.2)
    ([("type", .str "meta")], [])

/-- The first emitted line: `out_meta[REV[k] || k] = metadata[k]`. -/
def metaLine (metadata : List (String × JVal)) : JVal :=
  .obj (metadata.map (fun kv => (REV kv.1, kv.2)))

/-- The item records of `buildItemsAsync`, one line
`nd_tokenEncode(\x7b type: key, data: element \x7d)` = `\x7b "T": key, "D": element \x7d`
per element, all of one array before the next. -/
def itemLines (arr_data : List (String × List JVal)) : List JVal :=
  (arr_data.map (fun ka =>
    ka.2.map (fun el => JVal.obj [("T", .str ka.1), ("D", el)]))).flatten

/-- `nd_streamJsonWrite`'s stream: the meta record then the item records. -/
def encode (x : List (String × JVal)) : List JVal :=
  metaLine (buildMeta x).1 :: itemLines (buildMeta x).2

/-- `nd_tokenDecode`: each original key with a token target is moved to the
end of the insertion order under its long name
(`obj[nk] = obj[k]; delete obj[k]`); keys added during the walk are not
token keys and would be no-ops if revisited. -/
def tokenStep (acc : List (String × JVal)) (kv : String × JVal) :
    List (String × JVal) :=
  match tokTarget kv.1 with
  | some nk => setField (acc.filter (fun e => e.1 ≠ kv.1)) nk kv.2
  | none => acc

def tokenDecode (fields0 : List (String × JVal)) : List (String × JVal) :=
  fields0.foldl tokenStep fields0

/-- The decoder's set of declared array fields: `obj.__arrays || []`. -/
def arrayNames : Option JVal → List String
  | some (.arr l) => l.filterMap (fun v => match v with | .str s => some s | _ => none)
  | _ => []

/-- The decoder's accumulator: the object under construction and the keys
present in `arr_cache` (in the source `res[k]` and `arr_cache[k]` alias one
mutable array; here pushes rewrite `res` in place). -/
structure DecState where
  res : List (String × JVal)
  cached : List String

/-- One field of the decoded meta record: `type` and `__arrays` themselves
are skipped; declared array fields start as empty arrays and register in
`arr_cache`; every other field is copied. -/
def metaStep (af : List String) (st2 : DecState) (kv : String × JVal) : DecState :=
  if kv.1 = "type" ∨ kv.1 = "__arrays" then st2
  else if kv.1 ∈ af then
    { res := setField st2.res kv.1 (.arr []),
      cached := st2.cached ++ [kv.1] }
  else { st2 with res := setField st2.res kv.1 kv.2 }

/-- `arr_cache[akey].push(obj.data)`: appends to the aliased array (a
non-array value at that key — impossible in this codec's states — would be
left unchanged). -/
def pushData (dval : JVal) : JVal → JVal
  | .arr l => .arr (l ++ [dval])
  | w => w

/-- One line of `nd_parseJsonAsync`'s loop.  A meta record seeds `res` with
every field — declared array fields start as empty arrays — and an item
record pushes its `data` onto its array (creating it at the end when
undeclared).  Lines that are not objects with a string `type` never occur
in encoder output and leave the state unchanged. -/
def decodeLine (st : DecState) (line : JVal) : DecState :=
  match line with
  | .obj fields0 =>
      let obj := tokenDecode fields0
      match alookup obj "type" with
      | some (.str ty) =>
          if ty = "meta" then
            let af := arrayNames (alookup obj "__arrays")
            obj.foldl (metaStep af) st
          else
            let dval := (alookup obj "data").getD .null
            if ty ∈ st.cached then
              { st with res := st.res.map (fun e =>
                  if e.1 = ty then (e.1, pushData dval e.2) else e) }
            else
              { res := st.res ++ [(ty, .arr [dval])], cached := st.cached ++ [ty] }
      | _ => st
  | _ => st

/-- `nd_parseJsonAsync` over the whole stream (the reader has checked that
the first line's decoded `type` is `"meta"`; the loop then re-parses every
line, the meta record included). -/
def decode (lines : List JVal) : List (String × JVal) :=
  (lines.foldl decodeLine ⟨[], []⟩).res

/-- The value a field contributes to the meta record. -/
def metaEntry : JVal → JVal
  | .arr (e :: es) => .num (((e :: es).length : Rat))
  | v => v

/-- The state of a field in `res` right after the meta record: declared
arrays start empty, scalars are already final. -/
def initEntry (kv : String × JVal) : String × JVal :=
  if isArrayField kv.2 then (kv.1, .arr []) else kv

def arrayKeysOf (x : List (String × JVal)) : List String :=
  (x.filter (fun kv => isArrayField kv.2)).map Prod.fst

def arrayEntriesOf (x : List (String × JVal)) : List (String × List JVal) :=
  x.filterMap (fun kv =>
    match kv.2 with
    | .arr (e :: es) => some (kv.1, e :: es)
    | _ => none)

/-- The claim's input class: an insertion-ordered object with pairwise
distinct field names, none colliding with the reserved tokens (nor — since
the source tests with `in` — with an inherited `Object.prototype` name). -/
def WFObj (x : List (String × JVal)) : Prop :=
  (x.map Prod.fst).Nodup ∧ ∀ kv ∈ x, inReservedMSet kv.1 = false

instance WFObj.instDecidable (x : List (String × JVal)) : Decidable (WFObj x) := by
  unfold WFObj
  infer_instance

/-! ### Association-list helpers for the codec proofs -/

theorem alookup_eq_none_of_not_mem_keys {β : Type _} {l : List (String × β)} {k : String}
    (h : k ∉ l.map Prod.fst) : alookup l k = none := by
  induction l with
  | nil => rfl
  | cons e es ih =>
      simp only [List.map_cons, List.mem_cons] at h
      push_neg at h
      rw [alookup_cons, if_neg (fun hc => h.1 hc.symm)]
      exact ih h.2

theorem alookup_append_of_none {β : Type _} {l₁ : List (String × β)}
    (l₂ : List (String × β)) {k : String} (h : alookup l₁ k = none) :
    alookup (l₁ ++ l₂) k = alookup l₂ k := by
  rw [alookup_append, h]

theorem setField_of_not_mem {fields : List (String × JVal)} {k : String} (v : JVal)
    (h : alookup fields k = none) : setField fields k v = fields ++ [(k, v)] := by
  unfold setField upsert
  rw [h]
  rfl

theorem map_upd_of_not_mem {β : Type _} {l : List (String × β)} {k : String}
    (f : β → β) (h : k ∉ l.map Prod.fst) :
    l.map (fun e => if e.1 = k then (e.1, f e.2) else e) = l := by
  induction l with
  | nil => rfl
  | cons e es ih =>
      simp only [List.map_cons, List.mem_cons] at h
      push_neg at h
      rw [List.map_cons, if_neg (fun hc => h.1 hc.symm), ih h.2]

/-- A non-reserved key is none of the token names and passes both token
maps unchanged. -/
theorem not_reserved_facts {k : String} (h : inReservedMSet k = false) :
    k ≠ "type" ∧ k ≠ "__arrays" ∧ k ≠ "data" ∧ k ≠ "meta" ∧
      tokTarget k = none ∧ REV k = k := by
  have hr : k ∉ RESERVED := by
    intro hc
    rw [inReservedMSet, decide_eq_true hc] at h
    simp at h
  simp only [RESERVED, List.mem_cons, List.not_mem_nil, or_false] at hr
  push_neg at hr
  obtain ⟨h1, h2, h3, h4, h5, h6, h7, h8⟩ := hr
  refine ⟨h1, h2, h3, h4, ?_, ?_⟩
  · unfold tokTarget
    rw [if_neg h5, if_neg h6, if_neg h7, if_neg h8]
  · unfold REV
    rw [if_neg h1, if_neg h2, if_neg h3, if_neg h4]

/-! ### `nd_tokenDecode` on the encoder's record shapes -/

theorem tokenStep_noop_foldl (ws : List (String × JVal))
    (acc : List (String × JVal)) (h : ∀ kv ∈ ws, tokTarget kv.1 = none) :
    ws.foldl tokenStep acc = acc := by
  induction ws generalizing acc with
  | nil => rfl
  | cons e es ih =>
      rw [List.foldl_cons]
      have hstep : tokenStep acc e = acc := by
        unfold tokenStep
        rw [h e (List.mem_cons_self _ _)]
      rw [hstep]
      exact ih _ (fun kv hkv => h kv (List.mem_cons_of_mem _ hkv))

/-- Filtering away an absent key is the identity. -/
theorem filter_ne_of_keys {l : List (String × JVal)} {k : String}
    (h : k ∉ l.map Prod.fst) : l.filter (fun e => e.1 ≠ k) = l := by
  apply List.filter_eq_self.mpr
  intro e he
  have hne : e.1 ≠ k := fun hc => h (hc ▸ List.mem_map_of_mem Prod.fst he)
  simpa using hne

/-- Decoding the meta record of an object with no array fields: the `T`
entry is renamed to `type` and moved to the end. -/
theorem tokenDecode_meta_plain (m : JVal) (vs : List (String × JVal))
    (hv : ∀ kv ∈ vs, tokTarget kv.1 = none)
    (hT : "T" ∉ vs.map Prod.fst) (htype : "type" ∉ vs.map Prod.fst) :
    tokenDecode (("T", m) :: vs) = vs ++ [("type", m)] := by
  unfold tokenDecode
  rw [List.foldl_cons]
  have h1 : tokenStep (("T", m) :: vs) ("T", m) = vs ++ [("type", m)] := by
    unfold tokenStep
    show setField ((("T", m) :: vs).filter (fun e => e.1 ≠ "T")) "type" m
      = vs ++ [("type", m)]
    rw [List.filter_cons_of_neg (by simp), filter_ne_of_keys hT]
    exact setField_of_not_mem m (alookup_eq_none_of_not_mem_keys htype)
  rw [h1]
  exact tokenStep_noop_foldl vs _ hv

/-- Decoding the meta record of an object with array fields: `T` and `A`
are renamed to `type` and `__arrays` and moved, in this order, to the
end. -/
theorem tokenDecode_meta_arrays (m a : JVal) (vs₁ vs₂ : List (String × JVal))
    (hv : ∀ kv ∈ vs₁ ++ vs₂, tokTarget kv.1 = none)
    (hT : "T" ∉ (vs₁ ++ vs₂).map Prod.fst)
    (hA : "A" ∉ (vs₁ ++ vs₂).map Prod.fst)
    (htype : "type" ∉ (vs₁ ++ vs₂).map Prod.fst)
    (harr : "__arrays" ∉ (vs₁ ++ vs₂).map Prod.fst) :
    tokenDecode (("T", m) :: (vs₁ ++ ("A", a) :: vs₂))
      = (vs₁ ++ vs₂) ++ [("type", m), ("__arrays", a)] := by
  have hks : ∀ (k : String), k ∉ (vs₁ ++ vs₂).map Prod.fst →
      k ∉ vs₁.map Prod.fst ∧ k ∉ vs₂.map Prod.fst := by
    intro k hk
    rw [List.map_append] at hk
    exact ⟨fun hc => hk (List.mem_append_left _ hc),
      fun hc => hk (List.mem_append_right _ hc)⟩
  unfold tokenDecode
  rw [List.foldl_cons]
  have h1 : tokenStep (("T", m) :: (vs₁ ++ ("A", a) :: vs₂)) ("T", m)
      = (vs₁ ++ ("A", a) :: vs₂) ++ [("type", m)] := by
    unfold tokenStep
    show setField ((("T", m) :: (vs₁ ++ ("A", a) :: vs₂)).filter
      (fun e => e.1 ≠ "T")) "type" m = _
    rw [List.filter_cons_of_neg (by simp), List.filter_append,
      filter_ne_of_keys (hks "T" hT).1, List.filter_cons_of_pos (by simp),
      filter_ne_of_keys (hks "T" hT).2]
    have hty : "type" ∉ (vs₁ ++ ("A", a) :: vs₂).map Prod.fst := by
      rw [List.map_append, List.map_cons]
      intro hc
      rcases List.mem_append.mp hc with h2 | h2
      · exact (hks "type" htype).1 h2
      · rcases List.mem_cons.mp h2 with h3 | h3
        · simp at h3
        · exact (hks "type" htype).2 h3
    exact setField_of_not_mem m (alookup_eq_none_of_not_mem_keys hty)
  rw [h1, List.foldl_append]
  rw [tokenStep_noop_foldl vs₁ _ (fun kv hkv => hv kv (List.mem_append_left _ hkv))]
  rw [List.foldl_cons]
  have h2 : tokenStep ((vs₁ ++ ("A", a) :: vs₂) ++ [("type", m)]) ("A", a)
      = (vs₁ ++ vs₂) ++ [("type", m), ("__arrays", a)] := by
    unfold tokenStep
    show setField (((vs₁ ++ ("A", a) :: vs₂) ++ [("type", m)]).filter
      (fun e => e.1 ≠ "A")) "__arrays" a = _
    rw [List.filter_append, List.filter_append,
      filter_ne_of_keys (hks "A" hA).1, List.filter_cons_of_neg (by simp),
      filter_ne_of_keys (hks "A" hA).2,
      filter_ne_of_keys (show "A" ∉ ([("type", m)]).map Prod.fst by simp)]
    have harr2 : "__arrays" ∉ ((vs₁ ++ vs₂) ++ [("type", m)]).map Prod.fst := by
      rw [List.map_append]
      intro hc
      rcases List.mem_append.mp hc with h3 | h3
      · exact harr h3
      · simp at h3
    rw [setField_of_not_mem a (alookup_eq_none_of_not_mem_keys harr2)]
    simp [List.append_assoc]
  rw [h2]
  exact tokenStep_noop_foldl vs₂ _ (fun kv hkv => hv kv (List.mem_append_right _ hkv))

/-! ### Mid-list update lemmas -/

theorem alookup_mid {β : Type _} (l₁ l₂ : List (String × β)) (k : String) (w : β)
    (h : k ∉ l₁.map Prod.fst) :
    alookup (l₁ ++ (k, w) :: l₂) k = some w := by
  rw [alookup_append_of_none _ (alookup_eq_none_of_not_mem_keys h)]
  simp

theorem map_upd_mid {β : Type _} (l₁ l₂ : List (String × β)) (k : String) (w : β)
    (f : β → β) (h₁ : k ∉ l₁.map Prod.fst) (h₂ : k ∉ l₂.map Prod.fst) :
    (l₁ ++ (k, w) :: l₂).map (fun e => if e.1 = k then (e.1, f e.2) else e)
      = l₁ ++ (k, f w) :: l₂ := by
  rw [List.map_append, List.map_cons, map_upd_of_not_mem f h₁,
    map_upd_of_not_mem f h₂, if_pos rfl]

theorem upsert_mid {β : Type _} (l₁ l₂ : List (String × β)) (k : String) (w : β)
    (f : β → β) (dflt : β) (h₁ : k ∉ l₁.map Prod.fst) (h₂ : k ∉ l₂.map Prod.fst) :
    upsert (l₁ ++ (k, w) :: l₂) k f dflt = l₁ ++ (k, f w) :: l₂ := by
  unfold upsert
  rw [if_pos (by rw [alookup_mid l₁ l₂ k w h₁]; rfl)]
  exact map_upd_mid l₁ l₂ k w f h₁ h₂

/-! ### Key and value shape facts -/

/-- A reserved name never occurs among the keys of a well-formed object. -/
theorem key_not_mem_of_reserved {x : List (String × JVal)}
    (hres : ∀ kv ∈ x, inReservedMSet kv.1 = false) {s : String}
    (hs : inReservedMSet s = true) : s ∉ x.map Prod.fst := by
  intro hc
  obtain ⟨kv, h1, h2⟩ := List.mem_map.mp hc
  have h3 := hres kv h1
  rw [h2, hs] at h3
  exact Bool.noConfusion h3

theorem metaEntry_of_not_array : ∀ {v : JVal}, isArrayField v = false →
    metaEntry v = v
  | .num _, _ => rfl
  | .str _, _ => rfl
  | .boolean _, _ => rfl
  | .null, _ => rfl
  | .arr [], _ => rfl
  | .arr (_ :: _), h => Bool.noConfusion h
  | .obj _, _ => rfl

theorem isArrayField_shape : ∀ {v : JVal}, isArrayField v = true →
    ∃ e es, v = JVal.arr (e :: es)
  | .arr (e :: es), _ => ⟨e, es, rfl⟩
  | .num _, h => Bool.noConfusion h
  | .str _, h => Bool.noConfusion h
  | .boolean _, h => Bool.noConfusion h
  | .null, h => Bool.noConfusion h
  | .arr [], h => Bool.noConfusion h
  | .obj _, h => Bool.noConfusion h

/-- A field's keyed contribution to the meta record. -/
def metaEntryPair (kv : String × JVal) : String × JVal := (kv.1, metaEntry kv.2)

theorem map_fst_metaEntryPair (x : List (String × JVal)) :
    (x.map metaEntryPair).map Prod.fst = x.map Prod.fst := by
  induction x with
  | nil => rfl
  | cons e es ih => simp [metaEntryPair, ih]

theorem map_fst_initEntry (x : List (String × JVal)) :
    (x.map initEntry).map Prod.fst = x.map Prod.fst := by
  induction x with
  | nil => rfl
  | cons e es ih =>
      by_cases hb : isArrayField e.2 <;> simp [initEntry, hb, ih]

theorem initEntry_of_not_array {v : JVal} (h : isArrayField v = false) (k : String) :
    initEntry (k, v) = (k, v) := by
  unfold initEntry
  rw [if_neg (by simp [h])]

/-! ### Cons equations for the array-field projections -/

theorem arrayKeysOf_cons_pos (k : String) (e : JVal) (es : List JVal)
    (x : List (String × JVal)) :
    arrayKeysOf ((k, .arr (e :: es)) :: x) = k :: arrayKeysOf x := rfl

theorem arrayKeysOf_cons_neg : ∀ {v : JVal}, isArrayField v = false →
    ∀ (k : String) (x : List (String × JVal)),
      arrayKeysOf ((k, v) :: x) = arrayKeysOf x
  | .num _, _, _, _ => rfl
  | .str _, _, _, _ => rfl
  | .boolean _, _, _, _ => rfl
  | .null, _, _, _ => rfl
  | .arr [], _, _, _ => rfl
  | .arr (_ :: _), h, _, _ => Bool.noConfusion h
  | .obj _, _, _, _ => rfl

theorem arrayEntriesOf_cons_pos (k : String) (e : JVal) (es : List JVal)
    (x : List (String × JVal)) :
    arrayEntriesOf ((k, .arr (e :: es)) :: x) = (k, e :: es) :: arrayEntriesOf x := rfl

theorem arrayEntriesOf_cons_neg : ∀ {v : JVal}, isArrayField v = false →
    ∀ (k : String) (x : List (String × JVal)),
      arrayEntriesOf ((k, v) :: x) = arrayEntriesOf x
  | .num _, _, _, _ => rfl
  | .str _, _, _, _ => rfl
  | .boolean _, _, _, _ => rfl
  | .null, _, _, _ => rfl
  | .arr [], _, _, _ => rfl
  | .arr (_ :: _), h, _, _ => Bool.noConfusion h
  | .obj _, _, _, _ => rfl

theorem itemLines_cons (k : String) (ls : List JVal) (gs : List (String × List JVal)) :
    itemLines ((k, ls) :: gs)
      = ls.map (fun el => JVal.obj [("T", .str k), ("D", el)]) ++ itemLines gs := by
  simp [itemLines]

/-! ### Keys of the meta entries -/

theorem us_not_reserved {x : List (String × JVal)}
    (hres : ∀ kv ∈ x, inReservedMSet kv.1 = false) :
    ∀ kv ∈ x.map metaEntryPair, inReservedMSet kv.1 = false := by
  intro kv hkv
  obtain ⟨kv2, h1, h3⟩ := List.mem_map.mp hkv
  rw [← h3]
  exact hres kv2 h1

/-- Renaming with `REV` is the identity on a list of non-reserved keys. -/
theorem map_REV_id {l : List (String × JVal)}
    (h : ∀ kv ∈ l, inReservedMSet kv.1 = false) :
    l.map (fun kv => (REV kv.1, kv.2)) = l := by
  induction l with
  | nil => rfl
  | cons e es ih =>
      rw [List.map_cons, ih (fun kv hkv => h kv (List.mem_cons_of_mem _ hkv)),
        (not_reserved_facts (h e (List.mem_cons_self _ _))).2.2.2.2.2]

theorem nodup_key_inj {β : Type _} : ∀ {l : List (String × β)},
    (l.map Prod.fst).Nodup → ∀ {e₁ e₂ : String × β}, e₁ ∈ l → e₂ ∈ l →
      e₁.1 = e₂.1 → e₁ = e₂ := by
  intro l
  induction l with
  | nil => intro _ e₁ e₂ h1; simp at h1
  | cons e es ih =>
      intro hnd e₁ e₂ h1 h2 hk
      rw [List.map_cons, List.nodup_cons] at hnd
      rcases List.mem_cons.mp h1 with h1e | h1m
      · rcases List.mem_cons.mp h2 with h2e | h2m
        · rw [h1e, h2e]
        · exfalso
          apply hnd.1
          rw [← h1e, hk]
          exact List.mem_map_of_mem Prod.fst h2m
      · rcases List.mem_cons.mp h2 with h2e | h2m
        · exfalso
          apply hnd.1
          rw [← h2e, ← hk]
          exact List.mem_map_of_mem Prod.fst h1m
        · exact ih hnd.2 h1m h2m hk

theorem mem_arrayKeysOf {x : List (String × JVal)} (hnd : (x.map Prod.fst).Nodup)
    {kv : String × JVal} (hm : kv ∈ x) :
    kv.1 ∈ arrayKeysOf x ↔ isArrayField kv.2 = true := by
  constructor
  · intro h
    unfold arrayKeysOf at h
    obtain ⟨kv2, hmem2, hk⟩ := List.mem_map.mp h
    have hf := List.mem_filter.mp hmem2
    have heq : kv2 = kv := nodup_key_inj hnd hf.1 hm hk
    rw [← heq]
    simpa using hf.2
  · intro h
    unfold arrayKeysOf
    exact List.mem_map_of_mem _ (List.mem_filter.mpr ⟨hm, by simpa using h⟩)

theorem arrayNames_map_str (names : List String) :
    arrayNames (some (.arr (names.map JVal.str))) = names := by
  induction names with
  | nil => rfl
  | cons n ns ih =>
      have h1 : arrayNames (some (.arr ((n :: ns).map JVal.str)))
          = n :: arrayNames (some (.arr (ns.map JVal.str))) := rfl
      rw [h1, ih]

/-! ### The encoder's per-field step on non-reserved keys -/

theorem safeCopy_not_array {k : String} (hres : inReservedMSet k = false) :
    ∀ {v : JVal}, isArrayField v = false →
    ∀ (md : List (String × JVal)) (ad : List (String × List JVal)),
      safeCopyToMetadata md ad k v = (setField md k v, ad) := by
  intro v hb md ad
  unfold safeCopyToMetadata
  rw [if_neg (by simp [hres])]
  cases v with
  | num q => rfl
  | str s => rfl
  | boolean b => rfl
  | null => rfl
  | obj f => rfl
  | arr elems =>
      cases elems with
      | nil => rfl
      | cons e es => exact Bool.noConfusion hb

theorem safeCopy_array {k : String} (hres : inReservedMSet k = false)
    (e : JVal) (es : List JVal)
    (md : List (String × JVal)) (ad : List (String × List JVal)) :
    safeCopyToMetadata md ad k (.arr (e :: es)) =
      (pushArraysName (setField md k (.num ((e :: es).length : Rat))) k,
       ad ++ [(k, e :: es)]) := by
  unfold safeCopyToMetadata
  rw [if_neg (by simp [hres])]

/-- The shape of the metadata object after the encoder has processed a list
of non-reserved fields: the leading `type: 'meta'` entry, the processed
fields' meta entries in order and — once at least one array field has been
seen — a single `__arrays` entry listing the array keys, inserted where the
first array field created it. -/
def MetaShape (md us : List (String × JVal)) (names : List String) : Prop :=
  (names = [] ∧ md = ("type", JVal.str "meta") :: us) ∨
  (∃ us₁ us₂, us = us₁ ++ us₂ ∧ names ≠ [] ∧
    md = ("type", JVal.str "meta") ::
      (us₁ ++ ("__arrays", JVal.arr (names.map JVal.str)) :: us₂))

/-- Invariant of the metadata pass: folding `safeCopyToMetadata` over
fresh, non-reserved, pairwise-distinct fields extends the metadata by their
meta entries, the array-name list by their array keys, and the array queue
by their array contents. -/
theorem buildMeta_go (x : List (String × JVal)) :
    ∀ (md : List (String × JVal)) (ad : List (String × List JVal))
      (us : List (String × JVal)) (names : List String),
    MetaShape md us names →
    (∀ kv ∈ x, inReservedMSet kv.1 = false) →
    (x.map Prod.fst).Nodup →
    (∀ k ∈ x.map Prod.fst, k ∉ us.map Prod.fst) →
    "__arrays" ∉ us.map Prod.fst →
    MetaShape
      (x.foldl (fun acc kv => safeCopyToMetadata acc.1 acc.2 kv.1 kv.2) (md, ad)).1
      (us ++ x.map metaEntryPair) (names ++ arrayKeysOf x)
    ∧ (x.foldl (fun acc kv => safeCopyToMetadata acc.1 acc.2 kv.1 kv.2) (md, ad)).2
      = ad ++ arrayEntriesOf x := by
  induction x with
  | nil =>
      intro md ad us names hshape _ _ _ _
      constructor
      · simpa [arrayKeysOf] using hshape
      · simp [arrayEntriesOf]
  | cons kv rest ih =>
      intro md ad us names hshape hres hnd hdisj harr
      obtain ⟨k, v⟩ := kv
      have hresk : inReservedMSet k = false := hres (k, v) (List.mem_cons_self _ _)
      obtain ⟨hk_type, hk_arr, _, _, _, _⟩ := not_reserved_facts hresk
      have hk_us : k ∉ us.map Prod.fst := hdisj k (by simp)
      have hnd2 : (rest.map Prod.fst).Nodup := by
        rw [List.map_cons, List.nodup_cons] at hnd; exact hnd.2
      have hk_rest : k ∉ rest.map Prod.fst := by
        rw [List.map_cons, List.nodup_cons] at hnd; exact hnd.1
      have hres2 : ∀ kv ∈ rest, inReservedMSet kv.1 = false :=
        fun kv hkv => hres kv (List.mem_cons_of_mem _ hkv)
      have hdisj2 : ∀ (w : JVal), ∀ k2 ∈ rest.map Prod.fst,
          k2 ∉ (us ++ [(k, w)]).map Prod.fst := by
        intro w k2 hk2 hc
        rw [List.map_append] at hc
        rcases List.mem_append.mp hc with hc | hc
        · exact hdisj k2 (by simp [hk2]) hc
        · simp at hc
          subst hc
          exact hk_rest hk2
      have harr2 : ∀ (w : JVal), "__arrays" ∉ (us ++ [(k, w)]).map Prod.fst := by
        intro w hc
        rw [List.map_append] at hc
        rcases List.mem_append.mp hc with hc | hc
        · exact harr hc
        · simp at hc; exact hk_arr hc.symm
      rw [List.foldl_cons]
      dsimp only
      rcases hshape with ⟨hn, hmd⟩ | ⟨us₁, us₂, hus, hn, hmd⟩
      · subst hmd
        subst hn
        have hmd_k : alookup (("type", JVal.str "meta") :: us) k = none := by
          rw [alookup_cons, if_neg (fun hc => hk_type hc.symm)]
          exact alookup_eq_none_of_not_mem_keys hk_us
        by_cases hb : isArrayField v = true
        · obtain ⟨e, es, rfl⟩ := isArrayField_shape hb
          rw [safeCopy_array hresk e es, setField_of_not_mem _ hmd_k]
          have harr_md : alookup ((("type", JVal.str "meta") :: us)
              ++ [(k, JVal.num ((e :: es).length : Rat))]) "__arrays" = none := by
            apply alookup_eq_none_of_not_mem_keys
            intro hc
            rw [List.map_append, List.map_cons] at hc
            rcases List.mem_append.mp hc with hc | hc
            · rcases List.mem_cons.mp hc with hc | hc
              · exact absurd hc (by decide)
              · exact harr hc
            · simp at hc; exact hk_arr hc.symm
          have hpush : pushArraysName ((("type", JVal.str "meta") :: us)
                ++ [(k, JVal.num ((e :: es).length : Rat))]) k
              = ((("type", JVal.str "meta") :: us)
                  ++ [(k, JVal.num ((e :: es).length : Rat))])
                ++ [("__arrays", JVal.arr [JVal.str k])] := by
            unfold pushArraysName
            rw [harr_md]
          rw [hpush]
          have hIH := ih (((("type", JVal.str "meta") :: us)
                ++ [(k, JVal.num ((e :: es).length : Rat))])
              ++ [("__arrays", JVal.arr [JVal.str k])])
            (ad ++ [(k, e :: es)])
            (us ++ [(k, JVal.num ((e :: es).length : Rat))]) [k]
            (Or.inr ⟨us ++ [(k, JVal.num ((e :: es).length : Rat))], [],
              (List.append_nil _).symm, by simp, by simp⟩)
            hres2 hnd2 (hdisj2 _) (harr2 _)
          have hmep2 : metaEntryPair (k, JVal.arr (e :: es))
              = (k, JVal.num ((e :: es).length : Rat)) := rfl
          rw [List.map_cons, hmep2, arrayKeysOf_cons_pos, arrayEntriesOf_cons_pos]
          simp only [List.append_assoc, List.singleton_append, List.nil_append,
            List.append_nil, List.cons_append] at hIH ⊢
          exact hIH
        · rw [Bool.not_eq_true] at hb
          rw [safeCopy_not_array hresk hb, setField_of_not_mem v hmd_k]
          have hIH := ih ((("type", JVal.str "meta") :: us) ++ [(k, v)]) ad
            (us ++ [(k, v)]) []
            (Or.inl ⟨rfl, by simp⟩) hres2 hnd2 (hdisj2 v) (harr2 v)
          have hmep : metaEntryPair (k, v) = (k, v) := by
            unfold metaEntryPair
            rw [metaEntry_of_not_array hb]
          rw [List.map_cons, hmep, arrayKeysOf_cons_neg hb k rest,
            arrayEntriesOf_cons_neg hb k rest]
          simp only [List.append_assoc, List.singleton_append, List.nil_append,
            List.append_nil, List.cons_append] at hIH ⊢
          exact hIH
      · subst hmd
        subst hus
        have hk_us12 : k ∉ us₁.map Prod.fst ∧ k ∉ us₂.map Prod.fst := by
          rw [List.map_append] at hk_us
          exact ⟨fun hc => hk_us (List.mem_append_left _ hc),
            fun hc => hk_us (List.mem_append_right _ hc)⟩
        have harr1 : "__arrays" ∉ us₁.map Prod.fst ∧ "__arrays" ∉ us₂.map Prod.fst := by
          rw [List.map_append] at harr
          exact ⟨fun hc => harr (List.mem_append_left _ hc),
            fun hc => harr (List.mem_append_right _ hc)⟩
        have hmd_k : alookup (("type", JVal.str "meta")
            :: (us₁ ++ ("__arrays", JVal.arr (names.map JVal.str)) :: us₂)) k
            = none := by
          rw [alookup_cons, if_neg (fun hc => hk_type hc.symm),
            alookup_append_of_none _ (alookup_eq_none_of_not_mem_keys hk_us12.1),
            alookup_cons, if_neg (fun hc => hk_arr hc.symm)]
          exact alookup_eq_none_of_not_mem_keys hk_us12.2
        by_cases hb : isArrayField v = true
        · obtain ⟨e, es, rfl⟩ := isArrayField_shape hb
          rw [safeCopy_array hresk e es, setField_of_not_mem _ hmd_k]
          have hre : (("type", JVal.str "meta")
                :: (us₁ ++ ("__arrays", JVal.arr (names.map JVal.str)) :: us₂))
                ++ [(k, JVal.num ((e :: es).length : Rat))]
              = (("type", JVal.str "meta") :: us₁)
                ++ ("__arrays", JVal.arr (names.map JVal.str))
                  :: (us₂ ++ [(k, JVal.num ((e :: es).length : Rat))]) := by
            simp
          have harrT : "__arrays" ∉ (("type", JVal.str "meta") :: us₁).map Prod.fst := by
            rw [List.map_cons]
            intro hc
            rcases List.mem_cons.mp hc with hc | hc
            · exact absurd hc (by decide)
            · exact harr1.1 hc
          have harrB : "__arrays"
              ∉ (us₂ ++ [(k, JVal.num ((e :: es).length : Rat))]).map Prod.fst := by
            rw [List.map_append]
            intro hc
            rcases List.mem_append.mp hc with hc | hc
            · exact harr1.2 hc
            · simp at hc; exact hk_arr hc.symm
          have hpush : pushArraysName ((("type", JVal.str "meta") :: us₁)
                ++ ("__arrays", JVal.arr (names.map JVal.str))
                  :: (us₂ ++ [(k, JVal.num ((e :: es).length : Rat))])) k
              = (("type", JVal.str "meta") :: us₁)
                ++ ("__arrays", JVal.arr (names.map JVal.str ++ [JVal.str k]))
                  :: (us₂ ++ [(k, JVal.num ((e :: es).length : Rat))]) := by
            unfold pushArraysName
            rw [alookup_mid _ _ _ _ harrT]
            show setField ((("type", JVal.str "meta") :: us₁)
                ++ ("__arrays", JVal.arr (names.map JVal.str))
                  :: (us₂ ++ [(k, JVal.num ((e :: es).length : Rat))]))
              "__arrays" (JVal.arr (names.map JVal.str ++ [JVal.str k])) = _
            unfold setField
            exact upsert_mid _ _ _ _ _ _ harrT harrB
          rw [hre, hpush]
          have hIH := ih ((("type", JVal.str "meta") :: us₁)
              ++ ("__arrays", JVal.arr (names.map JVal.str ++ [JVal.str k]))
                :: (us₂ ++ [(k, JVal.num ((e :: es).length : Rat))]))
            (ad ++ [(k, e :: es)])
            ((us₁ ++ us₂) ++ [(k, JVal.num ((e :: es).length : Rat))])
            (names ++ [k])
            (Or.inr ⟨us₁, us₂ ++ [(k, JVal.num ((e :: es).length : Rat))],
              by simp, by simp, by simp⟩)
            hres2 hnd2 (hdisj2 _) (harr2 _)
          have hmep2 : metaEntryPair (k, JVal.arr (e :: es))
              = (k, JVal.num ((e :: es).length : Rat)) := rfl
          rw [List.map_cons, hmep2, arrayKeysOf_cons_pos, arrayEntriesOf_cons_pos]
          simp only [List.append_assoc, List.singleton_append, List.nil_append,
            List.append_nil, List.cons_append] at hIH ⊢
          exact hIH
        · rw [Bool.not_eq_true] at hb
          rw [safeCopy_not_array hresk hb, setField_of_not_mem v hmd_k]
          have hIH := ih ((("type", JVal.str "meta")
                :: (us₁ ++ ("__arrays", JVal.arr (names.map JVal.str)) :: us₂))
              ++ [(k, v)]) ad
            ((us₁ ++ us₂) ++ [(k, v)]) names
            (Or.inr ⟨us₁, us₂ ++ [(k, v)], by simp, hn, by simp⟩)
            hres2 hnd2 (hdisj2 v) (harr2 v)
          have hmep : metaEntryPair (k, v) = (k, v) := by
            unfold metaEntryPair
            rw [metaEntry_of_not_array hb]
          rw [List.map_cons, hmep, arrayKeysOf_cons_neg hb k rest,
            arrayEntriesOf_cons_neg hb k rest]
          simp only [List.append_assoc, List.singleton_append, List.nil_append,
            List.append_nil, List.cons_append] at hIH ⊢
          exact hIH

/-- The metadata pass of the encoder on a well-formed object. -/
theorem buildMeta_shape {x : List (String × JVal)} (h : WFObj x) :
    MetaShape (buildMeta x).1 (x.map metaEntryPair) (arrayKeysOf x)
    ∧ (buildMeta x).2 = arrayEntriesOf x := by
  obtain ⟨hnd, hres⟩ := h
  have h2 := buildMeta_go x [("type", JVal.str "meta")] [] [] []
    (Or.inl ⟨rfl, rfl⟩) hres hnd (by simp) (by simp)
  simpa using h2

/-! ### The decoder on the meta record -/

theorem metaStep_type (af : List String) (st : DecState) (m : JVal) :
    metaStep af st ("type", m) = st := by
  unfold metaStep
  rw [if_pos (Or.inl rfl)]

theorem metaStep_arrays (af : List String) (st : DecState) (m : JVal) :
    metaStep af st ("__arrays", m) = st := by
  unfold metaStep
  rw [if_pos (Or.inr rfl)]

/-- The decoder's meta-record fold over the user entries: scalar fields are
copied, declared array keys seed empty arrays and register in the cache. -/
theorem metaStep_go (x : List (String × JVal)) (af : List String) :
    ∀ (res0 : List (String × JVal)) (cached0 : List String),
    (∀ kv ∈ x, inReservedMSet kv.1 = false) →
    (x.map Prod.fst).Nodup →
    (∀ k ∈ x.map Prod.fst, k ∉ res0.map Prod.fst) →
    (∀ kv ∈ x, (kv.1 ∈ af ↔ isArrayField kv.2 = true)) →
    (x.map metaEntryPair).foldl (metaStep af) ⟨res0, cached0⟩
      = ⟨res0 ++ x.map initEntry, cached0 ++ arrayKeysOf x⟩ := by
  induction x with
  | nil =>
      intro res0 cached0 _ _ _ _
      simp [arrayKeysOf]
  | cons kv rest ih =>
      intro res0 cached0 hres hnd hdisj haf
      obtain ⟨k, v⟩ := kv
      have hresk := hres (k, v) (List.mem_cons_self _ _)
      obtain ⟨hk_type, hk_arr, _, _, _, _⟩ := not_reserved_facts hresk
      have hk_res : alookup res0 k = none :=
        alookup_eq_none_of_not_mem_keys (hdisj k (by simp))
      have hnd2 : (rest.map Prod.fst).Nodup := by
        rw [List.map_cons, List.nodup_cons] at hnd; exact hnd.2
      have hk_rest : k ∉ rest.map Prod.fst := by
        rw [List.map_cons, List.nodup_cons] at hnd; exact hnd.1
      have hres2 : ∀ kv ∈ rest, inReservedMSet kv.1 = false :=
        fun kv hkv => hres kv (List.mem_cons_of_mem _ hkv)
      have haf2 : ∀ kv ∈ rest, (kv.1 ∈ af ↔ isArrayField kv.2 = true) :=
        fun kv hkv => haf kv (List.mem_cons_of_mem _ hkv)
      have hdisj2 : ∀ (w : JVal), ∀ k2 ∈ rest.map Prod.fst,
          k2 ∉ (res0 ++ [(k, w)]).map Prod.fst := by
        intro w k2 hk2 hc
        rw [List.map_append] at hc
        rcases List.mem_append.mp hc with hc | hc
        · exact hdisj k2 (by simp [hk2]) hc
        · simp at hc
          subst hc
          exact hk_rest hk2
      rw [List.map_cons, List.foldl_cons]
      by_cases hb : isArrayField v = true
      · obtain ⟨e, es, rfl⟩ := isArrayField_shape hb
        have hstep : metaStep af ⟨res0, cached0⟩ (metaEntryPair (k, JVal.arr (e :: es)))
            = ⟨res0 ++ [(k, JVal.arr [])], cached0 ++ [k]⟩ := by
          unfold metaStep metaEntryPair
          dsimp only
          rw [if_neg (by push_neg; exact ⟨hk_type, hk_arr⟩),
            if_pos ((haf (k, JVal.arr (e :: es)) (List.mem_cons_self _ _)).mpr hb),
            setField_of_not_mem _ hk_res]
        rw [hstep, ih _ _ hres2 hnd2 (hdisj2 _) haf2]
        have hinit : initEntry (k, JVal.arr (e :: es)) = (k, JVal.arr []) := rfl
        rw [List.map_cons, hinit, arrayKeysOf_cons_pos]
        simp only [List.append_assoc, List.singleton_append, List.nil_append,
          List.append_nil, List.cons_append]
      · rw [Bool.not_eq_true] at hb
        have hnb : ¬ isArrayField v = true := by simp [hb]
        have hstep : metaStep af ⟨res0, cached0⟩ (metaEntryPair (k, v))
            = ⟨res0 ++ [(k, v)], cached0⟩ := by
          unfold metaStep metaEntryPair
          dsimp only
          rw [if_neg (by push_neg; exact ⟨hk_type, hk_arr⟩),
            if_neg (fun hc => hnb ((haf (k, v) (List.mem_cons_self _ _)).mp hc)),
            setField_of_not_mem _ hk_res, metaEntry_of_not_array hb]
        rw [hstep, ih _ _ hres2 hnd2 (hdisj2 _) haf2]
        rw [List.map_cons, initEntry_of_not_array hb k, arrayKeysOf_cons_neg hb k rest]
        simp only [List.append_assoc, List.singleton_append, List.nil_append,
          List.append_nil, List.cons_append]

/-- The keys of the meta entries of a well-formed object avoid all token
names. -/
theorem meta_keys_clean {x : List (String × JVal)}
    (hres : ∀ kv ∈ x, inReservedMSet kv.1 = false) :
    (∀ kv ∈ x.map metaEntryPair, tokTarget kv.1 = none)
    ∧ "T" ∉ (x.map metaEntryPair).map Prod.fst
    ∧ "A" ∉ (x.map metaEntryPair).map Prod.fst
    ∧ "type" ∉ (x.map metaEntryPair).map Prod.fst
    ∧ "__arrays" ∉ (x.map metaEntryPair).map Prod.fst := by
  have hres2 := us_not_reserved hres
  refine ⟨fun kv hkv => (not_reserved_facts (hres2 kv hkv)).2.2.2.2.1, ?_, ?_, ?_, ?_⟩
  all_goals
    rw [map_fst_metaEntryPair]
    exact key_not_mem_of_reserved hres (by decide)

/-- Decoding the encoder's meta line from the empty state seeds the result
with every field (declared arrays empty) and registers the array keys. -/
theorem decodeLine_meta {x : List (String × JVal)} (h : WFObj x) :
    decodeLine ⟨[], []⟩ (metaLine (buildMeta x).1)
      = ⟨x.map initEntry, arrayKeysOf x⟩ := by
  obtain ⟨hnd, hres⟩ := h
  obtain ⟨hclean_tok, hT, hA, htype, harr⟩ := meta_keys_clean hres
  obtain ⟨hshape, _⟩ := buildMeta_shape ⟨hnd, hres⟩
  rcases hshape with ⟨hn, hmd⟩ | ⟨us₁, us₂, hus, hn, hmd⟩
  · have hml : metaLine (buildMeta x).1
        = .obj (("T", JVal.str "meta") :: x.map metaEntryPair) := by
      rw [hmd]
      unfold metaLine
      rw [List.map_cons, map_REV_id (us_not_reserved hres)]
      rfl
    have htok : tokenDecode (("T", JVal.str "meta") :: x.map metaEntryPair)
        = x.map metaEntryPair ++ [("type", JVal.str "meta")] :=
      tokenDecode_meta_plain _ _ hclean_tok hT htype
    have ha1 : alookup (x.map metaEntryPair ++ [("type", JVal.str "meta")]) "type"
        = some (JVal.str "meta") := by
      rw [alookup_append_of_none _ (alookup_eq_none_of_not_mem_keys htype)]
      simp
    have ha2 : alookup (x.map metaEntryPair ++ [("type", JVal.str "meta")]) "__arrays"
        = none := by
      rw [alookup_append_of_none _ (alookup_eq_none_of_not_mem_keys harr)]
      simp
    rw [hml]
    simp only [decodeLine]
    rw [htok, ha1]
    show (x.map metaEntryPair ++ [("type", JVal.str "meta")]).foldl
        (metaStep (arrayNames (alookup
          (x.map metaEntryPair ++ [("type", JVal.str "meta")]) "__arrays")))
        ⟨[], []⟩
      = (⟨x.map initEntry, arrayKeysOf x⟩ : DecState)
    rw [ha2]
    have ha3 : arrayNames none = [] := rfl
    rw [ha3, List.foldl_append]
    have haf : ∀ kv ∈ x, (kv.1 ∈ ([] : List String) ↔ isArrayField kv.2 = true) := by
      intro kv hkv
      constructor
      · intro hc; exact absurd hc (List.not_mem_nil _)
      · intro hbt
        exact absurd ((mem_arrayKeysOf hnd hkv).mpr hbt)
          (by rw [hn]; exact List.not_mem_nil _)
    rw [metaStep_go x [] [] [] hres hnd (by simp) haf,
      List.foldl_cons, metaStep_type, List.foldl_nil]
    simp
  · have hns1 : ∀ kv ∈ us₁, inReservedMSet kv.1 = false := by
      intro kv hkv
      exact us_not_reserved hres kv (by rw [hus]; exact List.mem_append_left _ hkv)
    have hns2 : ∀ kv ∈ us₂, inReservedMSet kv.1 = false := by
      intro kv hkv
      exact us_not_reserved hres kv (by rw [hus]; exact List.mem_append_right _ hkv)
    have hml : metaLine (buildMeta x).1
        = .obj (("T", JVal.str "meta")
            :: (us₁ ++ ("A", JVal.arr ((arrayKeysOf x).map JVal.str)) :: us₂)) := by
      rw [hmd]
      unfold metaLine
      rw [List.map_cons, List.map_append, List.map_cons,
        map_REV_id hns1, map_REV_id hns2]
      rfl
    have hv2 : ∀ kv ∈ us₁ ++ us₂, tokTarget kv.1 = none := by
      rw [← hus]; exact hclean_tok
    have hT2 : "T" ∉ (us₁ ++ us₂).map Prod.fst := by rw [← hus]; exact hT
    have hA2 : "A" ∉ (us₁ ++ us₂).map Prod.fst := by rw [← hus]; exact hA
    have htype2 : "type" ∉ (us₁ ++ us₂).map Prod.fst := by rw [← hus]; exact htype
    have harr2 : "__arrays" ∉ (us₁ ++ us₂).map Prod.fst := by rw [← hus]; exact harr
    have htok := tokenDecode_meta_arrays (JVal.str "meta")
      (JVal.arr ((arrayKeysOf x).map JVal.str)) us₁ us₂ hv2 hT2 hA2 htype2 harr2
    have ha1 : alookup ((us₁ ++ us₂)
        ++ [("type", JVal.str "meta"),
            ("__arrays", JVal.arr ((arrayKeysOf x).map JVal.str))]) "type"
        = some (JVal.str "meta") := by
      rw [alookup_append_of_none _ (alookup_eq_none_of_not_mem_keys htype2)]
      simp
    have ha2 : alookup ((us₁ ++ us₂)
        ++ [("type", JVal.str "meta"),
            ("__arrays", JVal.arr ((arrayKeysOf x).map JVal.str))]) "__arrays"
        = some (JVal.arr ((arrayKeysOf x).map JVal.str)) := by
      rw [alookup_append_of_none _ (alookup_eq_none_of_not_mem_keys harr2)]
      simp
    rw [hml]
    simp only [decodeLine]
    rw [htok, ha1]
    show ((us₁ ++ us₂)
        ++ [("type", JVal.str "meta"),
            ("__arrays", JVal.arr ((arrayKeysOf x).map JVal.str))]).foldl
        (metaStep (arrayNames (alookup ((us₁ ++ us₂)
          ++ [("type", JVal.str "meta"),
              ("__arrays", JVal.arr ((arrayKeysOf x).map JVal.str))]) "__arrays")))
        ⟨[], []⟩
      = (⟨x.map initEntry, arrayKeysOf x⟩ : DecState)
    rw [ha2, arrayNames_map_str, ← hus, List.foldl_append]
    rw [metaStep_go x (arrayKeysOf x) [] [] hres hnd (by simp)
      (fun kv hkv => mem_arrayKeysOf hnd hkv)]
    rw [List.foldl_cons, metaStep_type, List.foldl_cons, metaStep_arrays,
      List.foldl_nil]
    simp

/-! ### The decoder on the item records -/

/-- Decoding one item record of a known, already-cached array key pushes
its `data` element onto that array. -/
theorem decodeLine_item (res : List (String × JVal)) (cached : List String)
    (k : String) (el : JVal) (hm : k ≠ "meta") (hc : k ∈ cached) :
    decodeLine ⟨res, cached⟩ (.obj [("T", JVal.str k), ("D", el)])
      = ⟨res.map (fun e => if e.1 = k then (e.1, pushData el e.2) else e), cached⟩ := by
  show (if k = "meta" then
      ([("type", JVal.str k), ("data", el)]).foldl
        (metaStep (arrayNames
          (alookup [("type", JVal.str k), ("data", el)] "__arrays")))
        ⟨res, cached⟩
    else if k ∈ cached then
      ⟨res.map (fun e => if e.1 = k then (e.1, pushData el e.2) else e), cached⟩
    else ⟨res ++ [(k, JVal.arr [el])], cached ++ [k]⟩)
    = (⟨res.map (fun e => if e.1 = k then (e.1, pushData el e.2) else e),
        cached⟩ : DecState)
  rw [if_neg hm, if_pos hc]

/-- Folding a whole group of item records of one cached key appends the
group's elements, in order, to that key's array. -/
theorem pushGroup (k : String) (hm : k ≠ "meta") :
    ∀ (els l : List JVal) (ys₁ ys₂ : List (String × JVal)) (cached : List String),
    k ∉ ys₁.map Prod.fst → k ∉ ys₂.map Prod.fst → k ∈ cached →
    (els.map (fun el => JVal.obj [("T", JVal.str k), ("D", el)])).foldl decodeLine
        ⟨ys₁ ++ (k, JVal.arr l) :: ys₂, cached⟩
      = ⟨ys₁ ++ (k, JVal.arr (l ++ els)) :: ys₂, cached⟩ := by
  intro els
  induction els with
  | nil =>
      intro l ys₁ ys₂ cached h1 h2 hc
      simp
  | cons el els ih =>
      intro l ys₁ ys₂ cached h1 h2 hc
      rw [List.map_cons, List.foldl_cons, decodeLine_item _ _ _ _ hm hc,
        map_upd_mid ys₁ ys₂ k (JVal.arr l) (pushData el) h1 h2]
      have hp : pushData el (JVal.arr l) = JVal.arr (l ++ [el]) := rfl
      rw [hp]
      have h3 := ih (l ++ [el]) ys₁ ys₂ cached h1 h2 hc
      simp only [List.append_assoc, List.singleton_append] at h3
      exact h3

/-- Folding the item lines over a seeded state fills every declared array
back to its original contents and leaves everything else unchanged. -/
theorem fill_groups (x : List (String × JVal)) :
    ∀ (pre : List (String × JVal)) (cached : List String),
    (∀ kv ∈ x, inReservedMSet kv.1 = false) →
    (x.map Prod.fst).Nodup →
    (∀ k ∈ x.map Prod.fst, k ∉ pre.map Prod.fst) →
    (∀ k ∈ arrayKeysOf x, k ∈ cached) →
    (itemLines (arrayEntriesOf x)).foldl decodeLine ⟨pre ++ x.map initEntry, cached⟩
      = ⟨pre ++ x, cached⟩ := by
  induction x with
  | nil =>
      intro pre cached _ _ _ _
      simp [itemLines, arrayEntriesOf]
  | cons kv rest ih =>
      intro pre cached hres hnd hdisj hcache
      obtain ⟨k, v⟩ := kv
      have hresk := hres (k, v) (List.mem_cons_self _ _)
      have hk_meta : k ≠ "meta" := (not_reserved_facts hresk).2.2.2.1
      have hnd2 : (rest.map Prod.fst).Nodup := by
        rw [List.map_cons, List.nodup_cons] at hnd; exact hnd.2
      have hk_rest : k ∉ rest.map Prod.fst := by
        rw [List.map_cons, List.nodup_cons] at hnd; exact hnd.1
      have hres2 : ∀ kv ∈ rest, inReservedMSet kv.1 = false :=
        fun kv hkv => hres kv (List.mem_cons_of_mem _ hkv)
      have hk_pre : k ∉ pre.map Prod.fst := hdisj k (by simp)
      have hdisj2 : ∀ k2 ∈ rest.map Prod.fst, k2 ∉ (pre ++ [(k, v)]).map Prod.fst := by
        intro k2 hk2 hc
        rw [List.map_append] at hc
        rcases List.mem_append.mp hc with hc | hc
        · exact hdisj k2 (by simp [hk2]) hc
        · simp at hc; subst hc; exact hk_rest hk2
      by_cases hb : isArrayField v = true
      · obtain ⟨e, es, rfl⟩ := isArrayField_shape hb
        rw [arrayEntriesOf_cons_pos, itemLines_cons, List.foldl_append]
        have hinit : initEntry (k, JVal.arr (e :: es)) = (k, JVal.arr []) := rfl
        rw [List.map_cons, hinit]
        have hk_mri : k ∉ (rest.map initEntry).map Prod.fst := by
          rw [map_fst_initEntry]; exact hk_rest
        have hcache_k : k ∈ cached := hcache k (by rw [arrayKeysOf_cons_pos]; simp)
        rw [pushGroup k hk_meta (e :: es) [] pre (rest.map initEntry) cached
          hk_pre hk_mri hcache_k, List.nil_append]
        have h4 := ih (pre ++ [(k, JVal.arr (e :: es))]) cached hres2 hnd2 hdisj2
          (fun k2 hk2 => hcache k2
            (by rw [arrayKeysOf_cons_pos]; exact List.mem_cons_of_mem _ hk2))
        simp only [List.append_assoc, List.singleton_append] at h4
        exact h4
      · rw [Bool.not_eq_true] at hb
        rw [arrayEntriesOf_cons_neg hb k rest, List.map_cons,
          initEntry_of_not_array hb k]
        have h4 := ih (pre ++ [(k, v)]) cached hres2 hnd2 hdisj2
          (fun k2 hk2 => hcache k2 (by rw [arrayKeysOf_cons_neg hb k rest]; exact hk2))
        simp only [List.append_assoc, List.singleton_append] at h4
        exact h4

/-- C2 (amended): the streaming JSON codec round-trips every object of
scalar and non-empty homogeneous array fields whose names are pairwise
distinct and do not collide with the reserved token set (nor with an
inherited `Object.prototype` property name, since the source tests
reservation with the `in` operator); a colliding field, by contrast, stays
parked under the `_u` escape sub-map in the decoded object and is NOT
restored to its top-level position — see the counterexample. -/
theorem C2_roundtrip_noncolliding (x : List (String × JVal)) (h : WFObj x) :
    decode (encode x) = x := by
  obtain ⟨hnd, hres⟩ := h
  unfold decode encode
  rw [List.foldl_cons, decodeLine_meta ⟨hnd, hres⟩, (buildMeta_shape ⟨hnd, hres⟩).2]
  have h4 := fill_groups x [] (arrayKeysOf x) hres hnd (by simp) (fun k hk => hk)
  simp only [List.nil_append] at h4
  rw [h4]

/-- C2 witness: a concrete well-formed object with one scalar field and one
array field round-trips through the streaming codec. -/
theorem C2_roundtrip_noncolliding_witness :
    WFObj [("hr", JVal.num 72), ("tags", JVal.arr [JVal.str "a", JVal.str "b"])]
    ∧ decode (encode [("hr", JVal.num 72),
        ("tags", JVal.arr [JVal.str "a", JVal.str "b"])])
      = [("hr", JVal.num 72), ("tags", JVal.arr [JVal.str "a", JVal.str "b"])] :=
  ⟨by decide, C2_roundtrip_noncolliding _ (by decide)⟩

/-- C2 counterexample: a field named `type` collides with the reserved
token set; the codec parks it under `_u` and the decoder never un-escapes
it, so the decoded object is `\x7b _u: \x7b type: 5 \x7d \x7d`, not the original
`\x7b type: 5 \x7d` — the claimed collision round-trip fails. -/
theorem C2_counterexample :
    decode (encode [("type", JVal.num 5)])
        = [("_u", JVal.obj [("type", JVal.num 5)])]
    ∧ decode (encode [("type", JVal.num 5)]) ≠ [("type", JVal.num 5)] := by
  have h1 : decode (encode [("type", JVal.num 5)])
      = [("_u", JVal.obj [("type", JVal.num 5)])] := rfl
  refine ⟨h1, ?_⟩
  rw [h1]
  intro hc
  have h2 : (none : Option JVal) = some (JVal.num 5) :=
    congrArg (fun l => alookup l "type") hc
  exact Option.noConfusion h2

end Codec

end EasyStorage
